import Mathlib

/-!
# Verification of the `fast-list` arena-backed doubly linked list

Shallow embedding of `src/linked_list.rs` and `src/walker.rs`.

The Rust code stores nodes in a `slotmap::SlotMap` keyed by generational
keys `(slot, generation)`.  The slotmap contract used by the list is:
a freshly minted key is distinct from every key that is currently live and
from every key that was ever handed out before for this map, and lookups
with a removed key fail.  We model keys as `Nat` minted from a per-list
counter (`nextKey`), which realises exactly that contract: fresh keys are
never equal to earlier keys of the same map.  (Observable behaviour is
unchanged; in particular, keys of two distinct lists may still collide,
just as two slotmaps may both hand out the key `(0, 1)` first, which is
what the `split_off` walker bug exercises.)

Panics (`unwrap()` on `None`) are modelled with `Except`, the error value
carrying the state of the list at the moment of the panic.
-/

namespace FastList

/-- `LinkedListItem<T>` from `linked_list.rs`. -/
structure LinkedListItem (T : Type) where
  index : Nat
  value : T
  next_index : Option Nat
  prev_index : Option Nat
deriving Repr, DecidableEq

/-- `LinkedList<T>` from `linked_list.rs`: `head`, `tail` and the slotmap
`items`.  `nextKey` is the slotmap allocator state: the key minted by the
next insertion.  `items` is the slotmap contents as an association list
with pairwise distinct keys (a structural slotmap invariant; it is part of
`ChainInv` below). -/
structure LinkedList (T : Type) where
  head : Option Nat
  tail : Option Nat
  nextKey : Nat
  items : List (Nat × LinkedListItem T)
deriving Repr, DecidableEq

variable {T : Type}

/-- Slotmap lookup `items.get(index)`. -/
def findItem : List (Nat × LinkedListItem T) → Nat → Option (LinkedListItem T)
  | [], _ => none
  | (k, it) :: m, j => if k = j then some it else findItem m j

/-- Slotmap in-place update `if let Some(x) = items.get_mut(k) { ... }`:
apply `f` to the item stored at `k`, no-op if `k` is absent. -/
def setItem (m : List (Nat × LinkedListItem T)) (k : Nat) (f : LinkedListItem T → LinkedListItem T) :
    List (Nat × LinkedListItem T) :=
  m.map (fun p => if p.1 = k then (p.1, f p.2) else p)

/-- Slotmap removal of key `k` (drops the binding). -/
def eraseItem (m : List (Nat × LinkedListItem T)) (k : Nat) : List (Nat × LinkedListItem T) :=
  m.filter (fun p => p.1 != k)

/-- The set of live keys, in storage order. -/
def keysOf (m : List (Nat × LinkedListItem T)) : List Nat :=
  m.map Prod.fst

/-- `LinkedList::new()`. -/
def new (T : Type) : LinkedList T :=
  { head := none, tail := none, nextKey := 0, items := [] }

/-- `LinkedList::get`. -/
def get (l : LinkedList T) (i : Nat) : Option (LinkedListItem T) :=
  findItem l.items i

/-- `LinkedList::len` (`self.items.len()`). -/
def len (l : LinkedList T) : Nat :=
  l.items.length

/-- `LinkedList::contains_key`. -/
def contains_key (l : LinkedList T) (i : Nat) : Bool :=
  (findItem l.items i).isSome

/-- `LinkedList::next_of`: `get(index).and_then(|it| it.next_index.and_then(get))`. -/
def next_of (l : LinkedList T) (i : Nat) : Option (LinkedListItem T) :=
  match findItem l.items i with
  | none => none
  | some it =>
    match it.next_index with
    | none => none
    | some nx => findItem l.items nx

/-- `LinkedList::prev_of`. -/
def prev_of (l : LinkedList T) (i : Nat) : Option (LinkedListItem T) :=
  match findItem l.items i with
  | none => none
  | some it =>
    match it.prev_index with
    | none => none
    | some p => findItem l.items p

/-- `LinkedList::next_of_mut`.  NOTE: the source reads `item.prev_index`
(`let next = item.and_then(|item| item.prev_index);`), not `next_index`;
we embed the code as written. -/
def next_of_mut (l : LinkedList T) (i : Nat) : Option (LinkedListItem T) :=
  match (findItem l.items i).bind (fun it => it.prev_index) with
  | none => none
  | some nx => findItem l.items nx

/-- `LinkedList::prev_of_mut` (follows `prev_index`). -/
def prev_of_mut (l : LinkedList T) (i : Nat) : Option (LinkedListItem T) :=
  match (findItem l.items i).bind (fun it => it.prev_index) with
  | none => none
  | some p => findItem l.items p

/-- `LinkedList::insert_after`.  `.error s` models the `unwrap()` panic on a
dead anchor, with `s` the list state at the moment of the panic. -/
def insert_after (l : LinkedList T) (i : Nat) (v : T) :
    Except (LinkedList T) (LinkedList T × Nat) :=
  match findItem l.items i with
  | none => .error l
  | some it0 =>
    let next_index := it0.next_index
    let k := l.nextKey
    let newIt : LinkedListItem T :=
      { index := k, value := v, next_index := next_index, prev_index := some i }
    let m1 := (k, newIt) :: l.items
    match next_index with
    | some nx =>
      .ok ({ head := l.head, tail := l.tail, nextKey := k + 1,
             items := setItem (setItem m1 nx
               (fun x => { x with prev_index := some k })) i
               (fun x => { x with next_index := some k }) }, k)
    | none =>
      .ok ({ head := l.head, tail := some k, nextKey := k + 1,
             items := setItem m1 i
               (fun x => { x with next_index := some k }) }, k)

/-- `LinkedList::insert_before`.  Two `unwrap()` panic points, as in the
source. -/
def insert_before (l : LinkedList T) (i : Nat) (v : T) :
    Except (LinkedList T) (LinkedList T × Nat) :=
  match findItem l.items i with
  | none => .error l
  | some it0 =>
    let prev_index := it0.prev_index
    let k := l.nextKey
    let newIt : LinkedListItem T :=
      { index := k, value := v, next_index := some i, prev_index := prev_index }
    let m1 := (k, newIt) :: l.items
    let step :=
      match prev_index with
      | some p =>
        (setItem m1 p (fun x => { x with next_index := some k }), l.head)
      | none => (m1, some k)
    match findItem step.1 i with
    | none =>
      .error { head := step.2, tail := l.tail, nextKey := k + 1, items := step.1 }
    | some _ =>
      .ok ({ head := step.2, tail := l.tail, nextKey := k + 1,
             items := setItem step.1 i
               (fun x => { x with prev_index := some k }) }, k)

/-- `LinkedList::push_back`; returns the new index and the new state. -/
def push_back (l : LinkedList T) (v : T) : Nat × LinkedList T :=
  let k := l.nextKey
  let newIt : LinkedListItem T :=
    { index := k, value := v, next_index := none, prev_index := l.tail }
  let m1 := (k, newIt) :: l.items
  match l.tail with
  | some t =>
    (k, { head := l.head, tail := some k, nextKey := k + 1,
          items := setItem m1 t (fun x => { x with next_index := some k }) })
  | none =>
    (k, { head := some k, tail := some k, nextKey := k + 1, items := m1 })

/-- `LinkedList::push_front`. -/
def push_front (l : LinkedList T) (v : T) : Nat × LinkedList T :=
  let k := l.nextKey
  let newIt : LinkedListItem T :=
    { index := k, value := v, next_index := l.head, prev_index := none }
  let m1 := (k, newIt) :: l.items
  match l.head with
  | some h =>
    (k, { head := some k, tail := l.tail, nextKey := k + 1,
          items := setItem m1 h (fun x => { x with prev_index := some k }) })
  | none =>
    (k, { head := some k, tail := some k, nextKey := k + 1, items := m1 })

/-- `LinkedList::pop_back` (panic-free in the source: all lookups are
`if let`). -/
def pop_back (l : LinkedList T) : Option T × LinkedList T :=
  match l.tail with
  | none => (none, l)
  | some old_t =>
    match findItem l.items old_t with
    | none => (none, l)
    | some it =>
      let m1 := eraseItem l.items old_t
      match it.prev_index with
      | some p =>
        (some it.value,
         { head := l.head, tail := it.prev_index, nextKey := l.nextKey,
           items := setItem m1 p (fun x => { x with next_index := none }) })
      | none =>
        (some it.value,
         { head := none, tail := none, nextKey := l.nextKey, items := m1 })

/-- `LinkedList::pop_front`.  The source does
`self.items.get_mut(next).unwrap()`, a panic point when the successor of
the head is dead; `self.head` has already been reassigned and the head
node removed at that moment. -/
def pop_front (l : LinkedList T) :
    Except (LinkedList T) (Option T × LinkedList T) :=
  match l.head with
  | none => .ok (none, l)
  | some old_h =>
    match findItem l.items old_h with
    | none => .ok (none, l)
    | some it =>
      let m1 := eraseItem l.items old_h
      match it.next_index with
      | some nx =>
        match findItem m1 nx with
        | none =>
          .error { head := it.next_index, tail := l.tail,
                   nextKey := l.nextKey, items := m1 }
        | some _ =>
          .ok (some it.value,
               { head := it.next_index, tail := l.tail, nextKey := l.nextKey,
                 items := setItem m1 nx
                   (fun x => { x with prev_index := none }) })
      | none =>
        .ok (some it.value,
             { head := none, tail := none, nextKey := l.nextKey, items := m1 })

/-- `LinkedList::remove`: returns the removed item (with its original
links) and the new state; `(none, l)` if the handle is stale. -/
def remove (l : LinkedList T) (i : Nat) : Option (LinkedListItem T) × LinkedList T :=
  match findItem l.items i with
  | none => (none, l)
  | some it =>
    let m1 := eraseItem l.items i
    let step :=
      match it.prev_index with
      | some p =>
        (l.head, setItem m1 p (fun x => { x with next_index := it.next_index }))
      | none => (it.next_index, m1)
    match it.next_index with
    | some nx =>
      (some it,
       { head := step.1, tail := l.tail, nextKey := l.nextKey,
         items := setItem step.2 nx
           (fun x => { x with prev_index := it.prev_index }) })
    | none =>
      (some it,
       { head := step.1, tail := it.prev_index, nextKey := l.nextKey,
         items := step.2 })

/-- `LinkedList::extend`: repeated `push_back`, collecting the new indexes
in order. -/
def extend (l : LinkedList T) (vs : List T) : List Nat × LinkedList T :=
  vs.foldl
    (fun acc v =>
      let r := push_back acc.2 v
      (acc.1 ++ [r.1], r.2))
    ([], l)

/-- One step of `LinkedListWalker::walk_next` (forward direction, as used
by `split_off`): given the context list and the walker's `current` state,
returns the new `current` and the yielded index.  When the lookup of
`current` fails, `current` is left unchanged and nothing is yielded
(`and_then` short-circuits). -/
def walk_next (ctx : LinkedList T) (cur : Option Nat) : Option Nat × Option Nat :=
  match cur with
  | none => (none, none)
  | some c =>
    match findItem ctx.items c with
    | none => (cur, none)
    | some it => (it.next_index, it.next_index)

/-- The `while let Some(next) = walker.walk_next(&new_list)` loop of
`split_off`, with fuel (the source loop is bounded by the walker running
off the end of `new_list`'s finite chain).  NOTE: faithfully to the
source, the walker is advanced against `new_list`, not `self`. -/
def splitOffLoop (self new_list : LinkedList T) (cur : Option Nat) :
    Nat → LinkedList T × LinkedList T
  | 0 => (new_list, self)
  | fuel + 1 =>
    let w := walk_next new_list cur
    match w.2 with
    | none => (new_list, self)
    | some nxt =>
      let r := remove self nxt
      let new' :=
        match r.1 with
        | some it => (push_back new_list it.value).2
        | none => new_list
      splitOffLoop r.2 new' w.1 fuel

/-- `LinkedList::split_off`: returns `(new_list, self after the call)`.
The walker is created before the first removal with `current = Some(index)`
(its list argument is unused by the constructor). -/
def split_off (l : LinkedList T) (i : Nat) : LinkedList T × LinkedList T :=
  let r := remove l i
  let new1 :=
    match r.1 with
    | some it => (push_back (new T) it.value).2
    | none => new T
  splitOffLoop r.2 new1 (some i) (l.items.length + 1)

/-- The `while let Some(index) = current` loop of `retain_mut`, with fuel.
`none` models either the `self.items.get(index).unwrap()` panic or fuel
exhaustion (the source loop terminates on every consistent list). -/
def retain_loop (l : LinkedList T) (cur : Option Nat) (f : T → Bool) :
    Nat → Option (LinkedList T)
  | 0 => none
  | fuel + 1 =>
    match cur with
    | none => some l
    | some idx =>
      match findItem l.items idx with
      | none => none
      | some it =>
        let l' := if f it.value then l else (remove l idx).2
        retain_loop l' it.next_index f fuel

/-- `LinkedList::retain_mut`. -/
def retain_mut (l : LinkedList T) (f : T → Bool) : Option (LinkedList T) :=
  retain_loop l l.head f (l.items.length + 1)

/-- The stream element `S i` of `std::iter::successors(Some(start), ...)`
in `cursor_next`: `S 0 = start`, `S (i+1) = get(S i).and_then(next_index)`;
`none` once the stream has ended.  `Iterator::nth k` on the cursor is
`cursorNextNth l start k`. -/
def cursorNextNth (l : LinkedList T) (c : Nat) : Nat → Option Nat
  | 0 => some c
  | k + 1 =>
    match (findItem l.items c).bind (fun it => it.next_index) with
    | none => none
    | some c' => cursorNextNth l c' k

/-- `Iterator::nth` on `cursor_prev`. -/
def cursorPrevNth (l : LinkedList T) (c : Nat) : Nat → Option Nat
  | 0 => some c
  | k + 1 =>
    match (findItem l.items c).bind (fun it => it.prev_index) with
    | none => none
    | some c' => cursorPrevNth l c' k

/-- The first `n` elements of the `cursor_next(start)` stream. -/
def cursorNextTake (l : LinkedList T) (c : Nat) : Nat → List Nat
  | 0 => []
  | n + 1 =>
    c :: (match (findItem l.items c).bind (fun it => it.next_index) with
          | none => []
          | some c' => cursorNextTake l c' n)

/-- Consuming `iter_next(start)` for `n` steps: each yielded index goes
through `self.items.get(index).unwrap()`; the first failing lookup
panics (`.error ()`). -/
def unwrapAll (l : LinkedList T) : List Nat → Except Unit (List (LinkedListItem T))
  | [] => .ok []
  | k :: ks =>
    match findItem l.items k with
    | none => .error ()
    | some it => (unwrapAll l ks).map (fun r => it :: r)

/-- The first `n` items yielded by `iter_next(start)` (or the panic). -/
def iterNextTake (l : LinkedList T) (start n : Nat) :
    Except Unit (List (LinkedListItem T)) :=
  unwrapAll l (cursorNextTake l start n)

/-- `usize` width. -/
def USIZE : Nat := 2 ^ 64

/-- Release-profile (two's-complement wrapping) `usize` subtraction. -/
def wsub (a b : Nat) : Nat :=
  (a % USIZE + (USIZE - b % USIZE)) % USIZE

/-- `LinkedList::nth`.  `.error ()` models the `self.head.unwrap()` /
`self.tail.unwrap()` panics; `self.len() - n - 1` is wrapping `usize`
arithmetic in the release profile. -/
def nth (l : LinkedList T) (n : Nat) : Except Unit (Option Nat) :=
  if n < len l / 2 then
    match l.head with
    | none => .error ()
    | some h => .ok (cursorNextNth l h n)
  else
    match l.tail with
    | none => .error ()
    | some t => .ok (cursorPrevNth l t (wsub (wsub (len l) n) 1))

/-- Observation function: values along `next` links from `head` (fuel
bounded; enough fuel for every consistent list). -/
def valuesFrom (l : LinkedList T) : Option Nat → Nat → List T
  | _, 0 => []
  | none, _ => []
  | some c, fuel + 1 =>
    match findItem l.items c with
    | none => []
    | some it => it.value :: valuesFrom l it.next_index fuel

/-- The value sequence of a list, head to tail. -/
def valuesOf (l : LinkedList T) : List T :=
  valuesFrom l l.head (l.items.length + 1)

/-! ## The structural invariant

A list is well formed when its live keys can be arranged in a sequence
`ks` (the logical order, head to tail) such that `head`/`tail` are the
ends of `ks`, consecutive elements are linked by `next_index`/`prev_index`
in both directions, and every live key is below the allocator counter. -/

/-- The head of `ks`, or `q` if `ks` is empty (the successor seen by the
node just before the segment `ks`). -/
def headO (ks : List Nat) (q : Option Nat) : Option Nat :=
  match ks with
  | [] => q
  | k :: _ => some k

/-- The last element of `ks`, or `p` if `ks` is empty (the predecessor
seen by the node just after the segment `ks`). -/
def lastO (ks : List Nat) (p : Option Nat) : Option Nat :=
  match ks.getLast? with
  | none => p
  | some a => some a

/-- The node stored at `k` exists and has exactly the links `p` and `q`. -/
def nodeChk (m : List (Nat × LinkedListItem T)) (k : Nat) (p q : Option Nat) : Bool :=
  match findItem m k with
  | none => false
  | some it => it.prev_index == p && it.next_index == q

/-- `segChk m p ks q`: the keys `ks` form a doubly linked segment inside
`m`; the first node's `prev_index` is `p`, the last node's `next_index`
is `q`, and consecutive nodes point at each other. -/
def segChk (m : List (Nat × LinkedListItem T)) (p : Option Nat) :
    List Nat → Option Nat → Bool
  | [], _ => true
  | k :: ks, q => nodeChk m k p (headO ks q) && segChk m (some k) ks q

/-- Full structural invariant of a list relative to its logical key
sequence `ks`. -/
def ChainInv (l : LinkedList T) (ks : List Nat) : Prop :=
  (keysOf l.items).Perm ks ∧ ks.Nodup ∧ (∀ k ∈ ks, k < l.nextKey) ∧
    l.head = ks.head? ∧ l.tail = ks.getLast? ∧
    segChk l.items none ks none = true

/-- A list is well formed when some logical order witnesses `ChainInv`. -/
def WF (l : LinkedList T) : Prop :=
  ∃ ks, ChainInv l ks

/-! ## Association-list lemmas -/

theorem findItem_cons (k : Nat) (it : LinkedListItem T) (m : List (Nat × LinkedListItem T))
    (j : Nat) :
    findItem ((k, it) :: m) j = if k = j then some it else findItem m j := rfl

theorem setItem_cons (a : Nat) (it : LinkedListItem T) (tl : List (Nat × LinkedListItem T))
    (k : Nat) (f : LinkedListItem T → LinkedListItem T) :
    setItem ((a, it) :: tl) k f =
      (if a = k then (a, f it) else (a, it)) :: setItem tl k f := rfl

theorem eraseItem_cons (a : Nat) (it : LinkedListItem T) (tl : List (Nat × LinkedListItem T))
    (k : Nat) :
    eraseItem ((a, it) :: tl) k =
      if a = k then eraseItem tl k else (a, it) :: eraseItem tl k := by
  by_cases h : a = k <;> simp [eraseItem, List.filter_cons, h]

theorem keysOf_cons (a : Nat) (it : LinkedListItem T) (tl : List (Nat × LinkedListItem T)) :
    keysOf ((a, it) :: tl) = a :: keysOf tl := rfl

theorem findItem_setItem (m : List (Nat × LinkedListItem T)) (k : Nat)
    (f : LinkedListItem T → LinkedListItem T) (j : Nat) :
    findItem (setItem m k f) j =
      if j = k then (findItem m j).map f else findItem m j := by
  induction m with
  | nil => simp [findItem, setItem]
  | cons hd tl ih =>
    obtain ⟨a, it⟩ := hd
    rw [setItem_cons]
    by_cases hak : a = k
    · rw [if_pos hak, findItem_cons, findItem_cons]
      by_cases haj : a = j
      · subst haj
        rw [if_pos rfl, if_pos rfl, if_pos hak]
        rfl
      · rw [if_neg haj, if_neg haj, ih]
    · rw [if_neg hak, findItem_cons, findItem_cons]
      by_cases haj : a = j
      · subst haj
        rw [if_pos rfl, if_pos rfl, if_neg (fun h => hak h)]
      · rw [if_neg haj, if_neg haj, ih]

theorem findItem_eraseItem (m : List (Nat × LinkedListItem T)) (k : Nat) (j : Nat) :
    findItem (eraseItem m k) j =
      if j = k then none else findItem m j := by
  induction m with
  | nil => simp [findItem, eraseItem]
  | cons hd tl ih =>
    obtain ⟨a, it⟩ := hd
    rw [eraseItem_cons]
    by_cases hak : a = k
    · subst hak
      rw [if_pos rfl, ih, findItem_cons]
      by_cases hja : j = a
      · simp [hja]
      · simp [hja, Ne.symm hja]
    · rw [if_neg hak, findItem_cons, findItem_cons]
      by_cases haj : a = j
      · subst haj
        rw [if_pos rfl, if_pos rfl, if_neg (fun h => hak h)]
      · rw [if_neg haj, if_neg haj, ih]

theorem keysOf_setItem (m : List (Nat × LinkedListItem T)) (k : Nat)
    (f : LinkedListItem T → LinkedListItem T) : keysOf (setItem m k f) = keysOf m := by
  induction m with
  | nil => rfl
  | cons hd tl ih =>
    obtain ⟨a, it⟩ := hd
    rw [setItem_cons]
    by_cases hak : a = k
    · rw [if_pos hak, keysOf_cons, keysOf_cons, ih]
    · rw [if_neg hak, keysOf_cons, keysOf_cons, ih]

theorem keysOf_eraseItem (m : List (Nat × LinkedListItem T)) (k : Nat) :
    keysOf (eraseItem m k) = (keysOf m).filter (fun j => j != k) := by
  induction m with
  | nil => rfl
  | cons hd tl ih =>
    obtain ⟨a, it⟩ := hd
    rw [eraseItem_cons, keysOf_cons, List.filter_cons]
    by_cases hak : a = k
    · rw [if_pos hak, ih]
      simp [hak]
    · rw [if_neg hak, keysOf_cons, ih]
      simp [hak]

theorem findItem_eq_none_iff (m : List (Nat × LinkedListItem T)) (j : Nat) :
    findItem m j = none ↔ j ∉ keysOf m := by
  induction m with
  | nil => simp [findItem, keysOf]
  | cons hd tl ih =>
    obtain ⟨a, it⟩ := hd
    rw [findItem_cons, keysOf_cons]
    by_cases haj : a = j
    · subst haj
      simp
    · rw [if_neg haj]
      simp [ih, Ne.symm haj]

theorem mem_keysOf_of_findItem (m : List (Nat × LinkedListItem T)) (j : Nat)
    (it : LinkedListItem T) (h : findItem m j = some it) : j ∈ keysOf m := by
  by_contra hmem
  rw [← findItem_eq_none_iff] at hmem
  rw [hmem] at h
  exact Option.noConfusion h

theorem length_setItem (m : List (Nat × LinkedListItem T)) (k : Nat)
    (f : LinkedListItem T → LinkedListItem T) : (setItem m k f).length = m.length := by
  simp [setItem]

/-! ## Chain-segment lemmas -/

theorem headO_nil (q : Option Nat) : headO [] q = q := rfl

theorem headO_cons (k : Nat) (ks : List Nat) (q : Option Nat) :
    headO (k :: ks) q = some k := rfl

theorem headO_append (A B : List Nat) (q : Option Nat) :
    headO (A ++ B) q = headO A (headO B q) := by
  cases A <;> rfl

theorem lastO_nil (p : Option Nat) : lastO [] p = p := rfl

theorem lastO_cons (a : Nat) (A : List Nat) (p : Option Nat) :
    lastO (a :: A) p = lastO A (some a) := by
  cases A with
  | nil => rfl
  | cons b A' =>
    show (match (a :: b :: A').getLast? with
          | none => p | some x => some x) = _
    rw [List.getLast?_cons_cons]
    rfl

theorem lastO_concat (A : List Nat) (a : Nat) (p : Option Nat) :
    lastO (A ++ [a]) p = some a := by
  induction A generalizing p with
  | nil => rfl
  | cons b A' ih => rw [List.cons_append, lastO_cons, ih]

theorem segChk_nil (m : List (Nat × LinkedListItem T)) (p q : Option Nat) :
    segChk m p [] q = true := rfl

theorem segChk_cons (m : List (Nat × LinkedListItem T)) (p : Option Nat) (k : Nat)
    (ks : List Nat) (q : Option Nat) :
    segChk m p (k :: ks) q =
      (nodeChk m k p (headO ks q) && segChk m (some k) ks q) := rfl

theorem nodeChk_iff (m : List (Nat × LinkedListItem T)) (k : Nat) (p q : Option Nat) :
    nodeChk m k p q = true ↔
      ∃ it, findItem m k = some it ∧ it.prev_index = p ∧
        it.next_index = q := by
  unfold nodeChk
  cases h : findItem m k with
  | none => simp
  | some it => simp

theorem segChk_append (m : List (Nat × LinkedListItem T)) (A B : List Nat)
    (p q : Option Nat) :
    segChk m p (A ++ B) q =
      (segChk m p A (headO B q) && segChk m (lastO A p) B q) := by
  induction A generalizing p with
  | nil => simp [segChk_nil, lastO_nil]
  | cons a A' ih =>
    rw [List.cons_append, segChk_cons, segChk_cons, headO_append, ih,
      lastO_cons, Bool.and_assoc]

theorem segChk_congr (m m' : List (Nat × LinkedListItem T)) (ks : List Nat)
    (p q : Option Nat) (h : ∀ k ∈ ks, findItem m' k = findItem m k) :
    segChk m' p ks q = segChk m p ks q := by
  induction ks generalizing p with
  | nil => rfl
  | cons k ks' ih =>
    rw [segChk_cons, segChk_cons]
    have hk : findItem m' k = findItem m k := h k (List.mem_cons_self k ks')
    have : nodeChk m' k p (headO ks' q) = nodeChk m k p (headO ks' q) := by
      unfold nodeChk
      rw [hk]
    rw [this, ih (some k) (fun j hj => h j (List.mem_cons_of_mem k hj))]

theorem chain_next_consistent (m : List (Nat × LinkedListItem T)) (ks : List Nat)
    (p : Option Nat) (a n : Nat) (it : LinkedListItem T)
    (hseg : segChk m p ks none = true) (hfind : findItem m a = some it)
    (hmem : a ∈ ks) (hnext : it.next_index = some n) :
    ∃ itn, findItem m n = some itn ∧ itn.prev_index = some a := by
  induction ks generalizing p with
  | nil => cases hmem
  | cons k rest ih =>
    rw [segChk_cons, Bool.and_eq_true] at hseg
    obtain ⟨hnode, hrest⟩ := hseg
    rw [nodeChk_iff] at hnode
    obtain ⟨itk, hfk, hpk, hnk⟩ := hnode
    rcases List.mem_cons.mp hmem with hak | har
    · subst hak
      rw [hfind] at hfk
      injection hfk with hfk
      subst hfk
      rw [hnext] at hnk
      cases rest with
      | nil => cases hnk
      | cons b rest' =>
        rw [headO_cons] at hnk
        injection hnk with hnk
        subst hnk
        rw [segChk_cons, Bool.and_eq_true] at hrest
        obtain ⟨hnode2, _⟩ := hrest
        rw [nodeChk_iff] at hnode2
        obtain ⟨itn, hfn, hpn, _⟩ := hnode2
        exact ⟨itn, hfn, hpn⟩
    · exact ih (some k) hrest har

theorem chain_prev_consistent (m : List (Nat × LinkedListItem T)) (ks : List Nat)
    (p : Option Nat) (a pn : Nat) (it : LinkedListItem T)
    (hseg : segChk m p ks none = true)
    (hp : ∀ pk, p = some pk →
      ∃ itp, findItem m pk = some itp ∧ itp.next_index = headO ks none)
    (hfind : findItem m a = some it) (hmem : a ∈ ks)
    (hprev : it.prev_index = some pn) :
    ∃ itp, findItem m pn = some itp ∧ itp.next_index = some a := by
  induction ks generalizing p with
  | nil => cases hmem
  | cons k rest ih =>
    rw [segChk_cons, Bool.and_eq_true] at hseg
    obtain ⟨hnode, hrest⟩ := hseg
    rw [nodeChk_iff] at hnode
    obtain ⟨itk, hfk, hpk, hnk⟩ := hnode
    rcases List.mem_cons.mp hmem with hak | har
    · subst hak
      rw [hfind] at hfk
      injection hfk with hfk
      subst hfk
      rw [hprev] at hpk
      obtain ⟨itp, hfp, hnp⟩ := hp pn hpk.symm
      rw [headO_cons] at hnp
      exact ⟨itp, hfp, hnp⟩
    · refine ih (some k) hrest ?_ har
      intro pk hpk'
      injection hpk' with hpk'
      subst hpk'
      exact ⟨itk, hfk, hnk⟩

/-! ## Small list helpers -/

theorem head?_append_left (xs ys : List Nat) (h : xs ≠ []) :
    (xs ++ ys).head? = xs.head? := by
  cases xs with
  | nil => exact absurd rfl h
  | cons a t => rfl

theorem getLast?_some_decomp (ks : List Nat) (t : Nat)
    (h : ks.getLast? = some t) : ∃ A, ks = A ++ [t] := by
  rcases List.eq_nil_or_concat ks with hnil | ⟨L, b, hLb⟩
  · rw [hnil] at h
    cases h
  · rw [List.concat_eq_append] at hLb
    refine ⟨L, ?_⟩
    rw [hLb] at h ⊢
    rw [List.getLast?_concat] at h
    injection h with h
    rw [h]

theorem lastO_of_getLast? (ks : List Nat) (t : Nat) (p : Option Nat)
    (h : ks.getLast? = some t) : lastO ks p = some t := by
  unfold lastO
  rw [h]

theorem findItem_exists_of_mem (m : List (Nat × LinkedListItem T)) (j : Nat)
    (h : j ∈ keysOf m) : ∃ it, findItem m j = some it := by
  cases hf : findItem m j with
  | some it => exact ⟨it, rfl⟩
  | none => exact absurd h ((findItem_eq_none_iff m j).mp hf)

/-! ## Invariant preservation -/

theorem chainInv_empty (T : Type) : ChainInv (new T) [] :=
  ⟨List.Perm.refl _, List.nodup_nil, by simp, rfl, rfl, rfl⟩

theorem wf_empty (T : Type) : WF (new T) :=
  ⟨[], chainInv_empty T⟩

theorem chainInv_pushBack (l : LinkedList T) (ks : List Nat) (v : T)
    (hinv : ChainInv l ks) :
    ChainInv (push_back l v).2 (ks ++ [l.nextKey]) := by
  obtain ⟨hperm, hnodup, hfresh, hhead, htail, hchain⟩ := hinv
  have hknotin : l.nextKey ∉ ks := fun hmem => lt_irrefl _ (hfresh _ hmem)
  have hnodup' : (ks ++ [l.nextKey]).Nodup := by
    rw [List.nodup_append]
    exact ⟨hnodup, List.nodup_singleton _,
      fun j hj hj' => hknotin ((List.mem_singleton.mp hj') ▸ hj)⟩
  have hfresh' : ∀ j ∈ ks ++ [l.nextKey], j < l.nextKey + 1 := by
    intro j hj
    rcases List.mem_append.mp hj with hj | hj
    · exact Nat.lt_succ_of_lt (hfresh j hj)
    · rw [List.mem_singleton.mp hj]
      exact Nat.lt_succ_self _
  cases htl : l.tail with
  | none =>
    have hksnil : ks = [] := by
      apply List.getLast?_eq_none_iff.mp
      rw [← htail, htl]
    subst hksnil
    have hitems : l.items = [] := List.map_eq_nil_iff.mp hperm.eq_nil
    simp only [push_back, htl]
    refine ⟨?_, hnodup', hfresh', ?_, ?_, ?_⟩
    · dsimp only
      rw [hitems]
      exact List.Perm.refl _
    · dsimp only
      rfl
    · dsimp only
      rfl
    · dsimp only
      rw [hitems]
      simp only [List.nil_append, segChk_cons, segChk_nil, headO_nil,
        Bool.and_true]
      rw [nodeChk_iff]
      exact ⟨_, by rw [findItem_cons, if_pos rfl], rfl, rfl⟩
  | some t =>
    obtain ⟨A, hA⟩ : ∃ A, ks = A ++ [t] :=
      getLast?_some_decomp ks t (by rw [← htail, htl])
    have htmem : t ∈ ks := by
      rw [hA]
      exact List.mem_append_right A (List.mem_singleton_self t)
    have hkt : l.nextKey ≠ t := fun h => hknotin (h ▸ htmem)
    have hksne : ks ≠ [] := by
      rw [hA]
      exact List.append_ne_nil_of_right_ne_nil A (by simp)
    -- old facts about the tail node
    have hsplit : segChk l.items none A (some t) = true ∧
        segChk l.items (lastO A none) [t] none = true := by
      have := hchain
      rw [hA, segChk_append, Bool.and_eq_true] at this
      exact this
    obtain ⟨itt, hft, hpt, hnt⟩ := (nodeChk_iff _ _ _ _).mp (by
      have := hsplit.2
      rw [segChk_cons, Bool.and_eq_true] at this
      exact this.1)
    simp only [push_back, htl]
    refine ⟨?_, hnodup', hfresh', ?_, ?_, ?_⟩
    · dsimp only
      rw [keysOf_setItem, keysOf_cons]
      exact (hperm.cons l.nextKey).trans
        (List.perm_append_singleton l.nextKey ks).symm
    · dsimp only
      rw [head?_append_left ks [l.nextKey] hksne]
      exact hhead
    · dsimp only
      rw [List.getLast?_concat]
    · dsimp only
      -- the new chain is A ++ [t, nextKey]
      have hassoc : ks ++ [l.nextKey] = A ++ [t, l.nextKey] := by
        rw [hA, List.append_assoc]
        rfl
      rw [hassoc, segChk_append, Bool.and_eq_true]
      constructor
      · -- the prefix A is untouched
        refine (segChk_congr l.items _ A none _ ?_).trans hsplit.1
        · intro j hj
          have hjt : j ≠ t := by
            intro h
            subst h
            have := hnodup
            rw [hA, List.nodup_append] at this
            exact this.2.2 hj (List.mem_singleton_self j)
          have hjk : l.nextKey ≠ j := by
            intro h
            exact hknotin (h ▸ (hA ▸ List.mem_append_left [t] hj))
          rw [findItem_setItem, if_neg hjt, findItem_cons, if_neg hjk]
      · -- the segment [t, nextKey]
        rw [segChk_cons, segChk_cons, segChk_nil, Bool.and_true,
          Bool.and_eq_true]
        constructor
        · rw [nodeChk_iff]
          refine ⟨{ itt with next_index := some l.nextKey }, ?_, hpt, ?_⟩
          · rw [findItem_setItem, if_pos rfl, findItem_cons, if_neg hkt, hft]
            rfl
          · rfl
        · rw [nodeChk_iff]
          refine ⟨{ index := l.nextKey, value := v, next_index := none, prev_index := some t }, ?_, rfl, rfl⟩
          rw [findItem_setItem, if_neg hkt, findItem_cons, if_pos rfl]

theorem getLast?_append_right (l1 l2 : List Nat) (h : l2 ≠ []) :
    (l1 ++ l2).getLast? = l2.getLast? := by
  rw [List.getLast?_append]
  cases hl : l2.getLast? with
  | none => exact absurd (List.getLast?_eq_none_iff.mp hl) h
  | some x => rfl

theorem filter_bne_of_not_mem (A : List Nat) (i : Nat) (h : i ∉ A) :
    A.filter (fun j => j != i) = A :=
  List.filter_eq_self.mpr (fun a ha => bne_iff_ne.mpr (fun he => h (he ▸ ha)))

theorem chainInv_pushFront (l : LinkedList T) (ks : List Nat) (v : T)
    (hinv : ChainInv l ks) :
    ChainInv (push_front l v).2 (l.nextKey :: ks) := by
  obtain ⟨hperm, hnodup, hfresh, hhead, htail, hchain⟩ := hinv
  have hknotin : l.nextKey ∉ ks := fun hmem => lt_irrefl _ (hfresh _ hmem)
  have hnodup' : (l.nextKey :: ks).Nodup := List.nodup_cons.mpr ⟨hknotin, hnodup⟩
  have hfresh' : ∀ j ∈ l.nextKey :: ks, j < l.nextKey + 1 := by
    intro j hj
    rcases List.mem_cons.mp hj with hj | hj
    · rw [hj]
      exact Nat.lt_succ_self _
    · exact Nat.lt_succ_of_lt (hfresh j hj)
  cases hhd : l.head with
  | none =>
    have hksnil : ks = [] := by
      cases hks : ks with
      | nil => rfl
      | cons a rest =>
        rw [hks] at hhead
        rw [hhd] at hhead
        cases hhead
    subst hksnil
    have hitems : l.items = [] := List.map_eq_nil_iff.mp hperm.eq_nil
    simp only [push_front, hhd]
    refine ⟨?_, hnodup', hfresh', rfl, ?_, ?_⟩
    · dsimp only
      rw [hitems]
      exact List.Perm.refl _
    · dsimp only
      simp
    · dsimp only
      rw [hitems]
      simp only [segChk_cons, segChk_nil, headO_nil, Bool.and_true]
      rw [nodeChk_iff]
      exact ⟨_, by rw [findItem_cons, if_pos rfl], rfl, rfl⟩
  | some hd =>
    have hksne : ∃ rest, ks = hd :: rest := by
      cases hks : ks with
      | nil =>
        rw [hks] at hhead
        rw [hhd] at hhead
        cases hhead
      | cons a rest =>
        rw [hks] at hhead
        rw [hhd] at hhead
        injection hhead with h
        exact ⟨rest, by rw [h]⟩
    obtain ⟨rest, hks⟩ := hksne
    have hhdmem : hd ∈ ks := by
      rw [hks]
      exact List.mem_cons_self hd rest
    have hkhd : l.nextKey ≠ hd := fun h => hknotin (h ▸ hhdmem)
    -- old facts about the head node
    have hold : nodeChk l.items hd none (headO rest none) = true ∧
        segChk l.items (some hd) rest none = true := by
      have := hchain
      rw [hks, segChk_cons, Bool.and_eq_true] at this
      exact this
    obtain ⟨ithd, hfh, hph, hnh⟩ := (nodeChk_iff _ _ _ _).mp hold.1
    simp only [push_front, hhd]
    refine ⟨?_, hnodup', hfresh', rfl, ?_, ?_⟩
    · dsimp only
      rw [keysOf_setItem, keysOf_cons]
      exact hperm.cons l.nextKey
    · dsimp only
      rw [hks, List.getLast?_cons_cons, htail, hks]
    · dsimp only
      rw [hks, segChk_cons, Bool.and_eq_true]
      constructor
      · rw [nodeChk_iff]
        refine ⟨{ index := l.nextKey, value := v, next_index := some hd, prev_index := none }, ?_, rfl, rfl⟩
        rw [findItem_setItem, if_neg hkhd, findItem_cons, if_pos rfl]
      · rw [segChk_cons, Bool.and_eq_true]
        constructor
        · rw [nodeChk_iff]
          refine ⟨{ ithd with prev_index := some l.nextKey }, ?_, rfl, ?_⟩
          · rw [findItem_setItem, if_pos rfl, findItem_cons, if_neg hkhd,
              hfh]
            rfl
          · exact hnh
        · refine (segChk_congr l.items _ rest (some hd) none ?_).trans hold.2
          intro j hj
          have hjhd : j ≠ hd := by
            intro h
            subst h
            rw [hks] at hnodup
            exact (List.nodup_cons.mp hnodup).1 hj
          have hjk : l.nextKey ≠ j := by
            intro h
            exact hknotin (h ▸ (hks ▸ List.mem_cons_of_mem hd hj))
          rw [findItem_setItem, if_neg hjhd, findItem_cons, if_neg hjk]

theorem removeOp_stale (l : LinkedList T) (i : Nat)
    (h : findItem l.items i = none) : remove l i = (none, l) := by
  unfold remove
  rw [h]

theorem chainInv_removeOp (l : LinkedList T) (ks : List Nat) (i : Nat)
    (hinv : ChainInv l ks) : WF (remove l i).2 := by
  obtain ⟨hperm, hnodup, hfresh, hhead, htail, hchain⟩ := hinv
  cases hf : findItem l.items i with
  | none =>
    rw [removeOp_stale l i hf]
    exact ⟨ks, hperm, hnodup, hfresh, hhead, htail, hchain⟩
  | some it =>
    have himem : i ∈ ks := hperm.mem_iff.mp (mem_keysOf_of_findItem _ _ _ hf)
    obtain ⟨A, B, hks⟩ := List.append_of_mem himem
    subst hks
    have hmid := List.nodup_middle.mp hnodup
    have hiAB : i ∉ A ++ B := (List.nodup_cons.mp hmid).1
    have hnodupAB : (A ++ B).Nodup := (List.nodup_cons.mp hmid).2
    have hiA : i ∉ A := fun h => hiAB (List.mem_append_left B h)
    have hiB : i ∉ B := fun h => hiAB (List.mem_append_right A h)
    have hchain' := hchain
    rw [segChk_append, Bool.and_eq_true] at hchain'
    obtain ⟨hsegA, hrest⟩ := hchain'
    rw [segChk_cons, Bool.and_eq_true] at hrest
    obtain ⟨hnodei, hsegB⟩ := hrest
    rw [nodeChk_iff] at hnodei
    obtain ⟨it', hfi, hprev, hnext⟩ := hnodei
    rw [hf] at hfi
    injection hfi with hfi
    subst hfi
    rw [headO_cons] at hsegA
    have hpermAB : (keysOf (eraseItem l.items i)).Perm (A ++ B) := by
      rw [keysOf_eraseItem]
      refine ((hperm.filter _).trans ?_)
      rw [List.filter_append, List.filter_cons]
      simp only [bne_self_eq_false]
      rw [filter_bne_of_not_mem A i hiA, filter_bne_of_not_mem B i hiB]
      exact List.Perm.refl _
    have hfreshAB : ∀ j ∈ A ++ B, j < l.nextKey := fun j hj =>
      hfresh j (by
        rcases List.mem_append.mp hj with h | h
        · exact List.mem_append_left _ h
        · exact List.mem_append_right _ (List.mem_cons_of_mem i h))
    simp only [remove, hf, hprev, hnext]
    rcases List.eq_nil_or_concat A with hA | ⟨A', a, hA⟩
    · subst hA
      simp only [lastO_nil]
      cases hB : B with
      | nil =>
        subst hB
        simp only [headO_nil]
        refine ⟨[], ?_, List.nodup_nil, by simp, rfl, rfl, rfl⟩
        simpa using hpermAB
      | cons b B' =>
        subst hB
        simp only [headO_cons]
        refine ⟨b :: B', ?_, ?_, ?_, rfl, ?_, ?_⟩
        · dsimp only
          rw [keysOf_setItem]
          simpa using hpermAB
        · simpa using hnodupAB
        · intro j hj
          exact hfreshAB j (by simpa using hj)
        · dsimp only
          rw [htail]
          rfl
        · -- the new chain b :: B'
          dsimp only
          rw [segChk_cons, Bool.and_eq_true]
          have hbB' : b ∉ B' := (List.nodup_cons.mp (by simpa using hnodupAB)).1
          have hbi : b ≠ i := fun h => hiB (h ▸ List.mem_cons_self b B')
          rw [segChk_cons, Bool.and_eq_true] at hsegB
          obtain ⟨hnodeb, hsegB'⟩ := hsegB
          rw [nodeChk_iff] at hnodeb
          obtain ⟨itb, hfb, hpb, hnb⟩ := hnodeb
          constructor
          · rw [nodeChk_iff]
            refine ⟨{ itb with prev_index := none }, ?_, rfl, hnb⟩
            rw [findItem_setItem, if_pos rfl, findItem_eraseItem,
              if_neg hbi, hfb]
            rfl
          · refine (segChk_congr l.items _ B' (some b) none ?_).trans hsegB'
            intro j hj
            have hjb : j ≠ b := fun h => hbB' (h ▸ hj)
            have hji : j ≠ i := fun h => hiB (h ▸ List.mem_cons_of_mem b hj)
            rw [findItem_setItem, if_neg hjb, findItem_eraseItem, if_neg hji]
    · rw [List.concat_eq_append] at hA
      subst hA
      simp only [lastO_concat]
      have haA' : a ∉ A' := by
        have h1 : (A' ++ [a]).Nodup := (List.nodup_append.mp hnodupAB).1
        rw [List.nodup_append] at h1
        exact fun h => h1.2.2 h (List.mem_singleton_self a)
      have hai : a ≠ i :=
        fun h => hiA (h ▸ List.mem_append_right A' (List.mem_singleton_self a))
      -- old facts about the node a
      rw [segChk_append, Bool.and_eq_true] at hsegA
      obtain ⟨hsegA', hsega⟩ := hsegA
      rw [segChk_cons, segChk_nil, Bool.and_true] at hsega
      rw [nodeChk_iff] at hsega
      obtain ⟨ita, hfa, hpa, hna⟩ := hsega
      rw [headO_cons] at hsegA'
      rw [headO_nil] at hna
      cases hB : B with
      | nil =>
        subst hB
        simp only [headO_nil]
        refine ⟨A' ++ [a], ?_, ?_, ?_, ?_, ?_, ?_⟩
        · dsimp only
          rw [keysOf_setItem]
          simpa using hpermAB
        · simpa using hnodupAB
        · intro j hj
          exact hfreshAB j (by simpa using hj)
        · dsimp only
          rw [hhead, head?_append_left (A' ++ [a]) [i] (by simp)]
        · dsimp only
          rw [List.getLast?_concat]
        · dsimp only
          rw [segChk_append, Bool.and_eq_true]
          constructor
          · refine (segChk_congr l.items _ A' none _ ?_).trans hsegA'
            intro j hj
            have hja : j ≠ a := fun h => haA' (h ▸ hj)
            have hji : j ≠ i :=
              fun h => hiA (h ▸ List.mem_append_left [a] hj)
            rw [findItem_setItem, if_neg hja, findItem_eraseItem,
              if_neg hji]
          · rw [segChk_cons, segChk_nil, Bool.and_true, nodeChk_iff]
            refine ⟨{ ita with next_index := none }, ?_, hpa, rfl⟩
            rw [findItem_setItem, if_pos rfl, findItem_eraseItem,
              if_neg hai, hfa]
            rfl
      | cons b B' =>
        subst hB
        simp only [headO_cons]
        have hbB' : b ∉ B' :=
          (List.nodup_cons.mp (List.nodup_append.mp hnodupAB).2.1).1
        have hbi : b ≠ i := fun h => hiB (h ▸ List.mem_cons_self b B')
        have hba : b ≠ a := by
          intro h
          subst h
          exact (List.nodup_append.mp hnodupAB).2.2
            (List.mem_append_right A' (List.mem_singleton_self b))
            (List.mem_cons_self b B')
        rw [segChk_cons, Bool.and_eq_true] at hsegB
        obtain ⟨hnodeb, hsegB'⟩ := hsegB
        rw [nodeChk_iff] at hnodeb
        obtain ⟨itb, hfb, hpb, hnb⟩ := hnodeb
        refine ⟨(A' ++ [a]) ++ b :: B', ?_, hnodupAB, hfreshAB, ?_, ?_, ?_⟩
        · dsimp only
          rw [keysOf_setItem, keysOf_setItem]
          exact hpermAB
        · dsimp only
          rw [hhead, head?_append_left (A' ++ [a]) (i :: b :: B') (by simp),
            head?_append_left (A' ++ [a]) (b :: B') (by simp)]
        · dsimp only
          rw [htail,
            getLast?_append_right (A' ++ [a]) (i :: b :: B') (by simp),
            getLast?_append_right (A' ++ [a]) (b :: B') (by simp),
            List.getLast?_cons_cons]
        · dsimp only
          rw [segChk_append, Bool.and_eq_true]
          constructor
          · -- prefix A' ++ [a], with the node a retargeted at b
            rw [segChk_append, Bool.and_eq_true]
            constructor
            · refine (segChk_congr l.items _ A' none _ ?_).trans hsegA'
              intro j hj
              have hja : j ≠ a := fun h => haA' (h ▸ hj)
              have hji : j ≠ i :=
                fun h => hiA (h ▸ List.mem_append_left [a] hj)
              have hjb : j ≠ b := by
                intro h
                subst h
                exact (List.nodup_append.mp hnodupAB).2.2
                  (List.mem_append_left [a] hj) (List.mem_cons_self j B')
              rw [findItem_setItem, if_neg hjb, findItem_setItem,
                if_neg hja, findItem_eraseItem, if_neg hji]
            · rw [segChk_cons, segChk_nil, Bool.and_true, nodeChk_iff]
              refine ⟨{ ita with next_index := some b }, ?_, hpa, rfl⟩
              rw [findItem_setItem, if_neg hba.symm, findItem_setItem,
                if_pos rfl, findItem_eraseItem, if_neg hai, hfa]
              rfl
          · -- suffix b :: B', with the node b retargeted at a
            rw [segChk_cons, Bool.and_eq_true]
            constructor
            · rw [nodeChk_iff]
              refine ⟨{ itb with prev_index := some a }, ?_, ?_, hnb⟩
              · rw [findItem_setItem, if_pos rfl, findItem_setItem,
                  if_neg hba, findItem_eraseItem, if_neg hbi, hfb]
                rfl
              · rw [lastO_concat]
            · refine (segChk_congr l.items _ B' (some b) none ?_).trans
                hsegB'
              intro j hj
              have hjb : j ≠ b := fun h => hbB' (h ▸ hj)
              have hji : j ≠ i :=
                fun h => hiB (h ▸ List.mem_cons_of_mem b hj)
              have hja : j ≠ a := by
                intro h
                subst h
                exact (List.nodup_append.mp hnodupAB).2.2
                  (List.mem_append_right A' (List.mem_singleton_self j))
                  (List.mem_cons_of_mem b hj)
              rw [findItem_setItem, if_neg hjb, findItem_setItem,
                if_neg hja, findItem_eraseItem, if_neg hji]

theorem head?_append_cons (A : List Nat) (i : Nat) (X : List Nat) :
    (A ++ i :: X).head? = headO A (some i) := by
  cases A <;> rfl

theorem headO_eq_none (B : List Nat) (hB : headO B none = none) : B = [] := by
  cases B with
  | nil => rfl
  | cons b B' => cases hB

theorem chainInv_insertAfter (l : LinkedList T) (ks : List Nat) (i : Nat)
    (v : T) (l' : LinkedList T) (k' : Nat) (hinv : ChainInv l ks)
    (hok : insert_after l i v = .ok (l', k')) : WF l' := by
  obtain ⟨hperm, hnodup, hfresh, hhead, htail, hchain⟩ := hinv
  cases hf : findItem l.items i with
  | none =>
    rw [insert_after, hf] at hok
    cases hok
  | some it0 =>
    have himem : i ∈ ks := hperm.mem_iff.mp (mem_keysOf_of_findItem _ _ _ hf)
    obtain ⟨A, B, hks⟩ := List.append_of_mem himem
    subst hks
    have hmid := List.nodup_middle.mp hnodup
    have hiAB : i ∉ A ++ B := (List.nodup_cons.mp hmid).1
    have hiA : i ∉ A := fun h => hiAB (List.mem_append_left B h)
    have hiB : i ∉ B := fun h => hiAB (List.mem_append_right A h)
    have hkfresh : l.nextKey ∉ A ++ i :: B :=
      fun h => lt_irrefl _ (hfresh _ h)
    have hki : l.nextKey ≠ i := by
      intro h
      rw [h] at hkfresh
      exact hkfresh (List.mem_append_right A (List.mem_cons_self i B))
    have hchain' := hchain
    rw [segChk_append, Bool.and_eq_true] at hchain'
    obtain ⟨hsegA, hrest⟩ := hchain'
    rw [segChk_cons, Bool.and_eq_true] at hrest
    obtain ⟨hnodei, hsegB⟩ := hrest
    rw [nodeChk_iff] at hnodei
    obtain ⟨it', hfi, hprev, hnext⟩ := hnodei
    rw [hf] at hfi
    injection hfi with hfi
    subst hfi
    rw [headO_cons] at hsegA
    simp only [insert_after, hf] at hok
    cases hnx : it0.next_index with
    | none =>
      -- the anchor is the tail: new chain is A ++ [i, nextKey]
      simp only [hnx] at hok
      have hB : B = [] := headO_eq_none B (by rw [← hnext, hnx])
      subst hB
      injection hok with hok
      injection hok with hok1 hok2
      refine ⟨A ++ [i, l.nextKey], ?_⟩
      rw [← hok1]
      have hassoc : A ++ [i, l.nextKey] = (A ++ [i]) ++ [l.nextKey] := by
        rw [List.append_assoc]
        rfl
      refine ⟨?_, ?_, ?_, ?_, ?_, ?_⟩
      · dsimp only
        rw [keysOf_setItem, keysOf_cons, hassoc]
        exact (hperm.cons l.nextKey).trans
          (List.perm_append_singleton l.nextKey (A ++ [i])).symm
      · rw [hassoc, List.nodup_append]
        refine ⟨hnodup, List.nodup_singleton _, ?_⟩
        intro j hj hj'
        rw [List.mem_singleton.mp hj'] at hj
        exact hkfresh hj
      · intro j hj
        dsimp only
        rw [hassoc] at hj
        rcases List.mem_append.mp hj with h | h
        · exact Nat.lt_succ_of_lt (hfresh j h)
        · rw [List.mem_singleton.mp h]
          exact Nat.lt_succ_self _
      · dsimp only
        rw [hhead, head?_append_cons, head?_append_cons]
      · dsimp only
        rw [hassoc, List.getLast?_concat]
      · dsimp only
        rw [segChk_append, Bool.and_eq_true]
        constructor
        · refine (segChk_congr l.items _ A none _ ?_).trans hsegA
          intro j hj
          have hji : j ≠ i := fun h => hiA (h ▸ hj)
          have hjk : l.nextKey ≠ j :=
            fun h => hkfresh (h ▸ List.mem_append_left [i] hj)
          rw [findItem_setItem, if_neg hji, findItem_cons, if_neg hjk]
        · rw [segChk_cons, segChk_cons, segChk_nil, Bool.and_true,
            Bool.and_eq_true]
          constructor
          · rw [nodeChk_iff]
            refine ⟨{ it0 with next_index := some l.nextKey }, ?_, hprev, rfl⟩
            rw [findItem_setItem, if_pos rfl, findItem_cons, if_neg hki, hf]
            rfl
          · rw [nodeChk_iff]
            refine ⟨⟨l.nextKey, v, none, some i⟩, ?_, rfl, rfl⟩
            rw [findItem_setItem, if_neg hki, findItem_cons, if_pos rfl]
    | some nx =>
      -- the anchor has a successor: new chain is A ++ i :: nextKey :: B
      simp only [hnx] at hok
      obtain ⟨B', hB⟩ : ∃ B', B = nx :: B' := by
        cases hBc : B with
        | nil =>
          rw [hBc] at hnext
          rw [hnx] at hnext
          cases hnext
        | cons b B' =>
          rw [hBc] at hnext
          rw [hnx, headO_cons] at hnext
          injection hnext with hnext
          exact ⟨B', by rw [hnext]⟩
      subst hB
      injection hok with hok
      injection hok with hok1 hok2
      have hnxks : nx ∈ A ++ i :: nx :: B' :=
        List.mem_append_right A (List.mem_cons_of_mem i
          (List.mem_cons_self nx B'))
      have hknx : l.nextKey ≠ nx := fun h => hkfresh (h ▸ hnxks)
      have hinx : i ≠ nx := fun h => hiB (h ▸ List.mem_cons_self nx B')
      have hnxA : nx ∉ A := by
        intro h
        have := List.nodup_middle.mp hnodup
        rw [List.nodup_cons] at this
        have h2 := List.nodup_middle.mp (this.2)
        rw [List.nodup_cons] at h2
        exact h2.1 (List.mem_append_left B' h)
      have hnxB' : nx ∉ B' := by
        have := List.nodup_middle.mp hnodup
        rw [List.nodup_cons] at this
        have h2 := List.nodup_middle.mp (this.2)
        rw [List.nodup_cons] at h2
        exact fun h => h2.1 (List.mem_append_right A h)
      -- decompose the old B-segment
      rw [segChk_cons, Bool.and_eq_true] at hsegB
      obtain ⟨hnodenx, hsegB'⟩ := hsegB
      rw [nodeChk_iff] at hnodenx
      obtain ⟨itnx, hfnx, hpnx, hnnx⟩ := hnodenx
      have hmidperm : (A ++ i :: l.nextKey :: nx :: B').Perm
          (l.nextKey :: (A ++ i :: nx :: B')) := by
        have h1 : A ++ i :: l.nextKey :: nx :: B' =
            (A ++ [i]) ++ l.nextKey :: (nx :: B') := by simp
        have h2 : A ++ i :: nx :: B' = (A ++ [i]) ++ nx :: B' := by simp
        rw [h1, h2]
        exact List.perm_middle
      refine ⟨A ++ i :: l.nextKey :: nx :: B', ?_⟩
      rw [← hok1]
      refine ⟨?_, ?_, ?_, ?_, ?_, ?_⟩
      · dsimp only
        rw [keysOf_setItem, keysOf_setItem, keysOf_cons]
        exact (hperm.cons l.nextKey).trans hmidperm.symm
      · exact hmidperm.nodup_iff.mpr (List.nodup_cons.mpr ⟨hkfresh, hnodup⟩)
      · intro j hj
        dsimp only
        rcases List.mem_cons.mp (hmidperm.mem_iff.mp hj) with h | h
        · rw [h]
          exact Nat.lt_succ_self _
        · exact Nat.lt_succ_of_lt (hfresh j h)
      · dsimp only
        rw [hhead, head?_append_cons, head?_append_cons]
      · dsimp only
        rw [htail, getLast?_append_right A (i :: nx :: B') (by simp),
          getLast?_append_right A (i :: l.nextKey :: nx :: B') (by simp),
          List.getLast?_cons_cons, List.getLast?_cons_cons,
          List.getLast?_cons_cons]
      · dsimp only
        rw [segChk_append, Bool.and_eq_true]
        constructor
        · refine (segChk_congr l.items _ A none _ ?_).trans hsegA
          intro j hj
          have hji : j ≠ i := fun h => hiA (h ▸ hj)
          have hjnx : j ≠ nx := fun h => hnxA (h ▸ hj)
          have hjk : l.nextKey ≠ j :=
            fun h => hkfresh (h ▸ List.mem_append_left _ hj)
          rw [findItem_setItem, if_neg hji, findItem_setItem, if_neg hjnx,
            findItem_cons, if_neg hjk]
        · rw [segChk_cons, Bool.and_eq_true]
          constructor
          · rw [nodeChk_iff]
            refine ⟨{ it0 with next_index := some l.nextKey }, ?_, hprev, rfl⟩
            rw [findItem_setItem, if_pos rfl, findItem_setItem, if_neg hinx,
              findItem_cons, if_neg hki, hf]
            rfl
          · rw [segChk_cons, Bool.and_eq_true]
            constructor
            · rw [nodeChk_iff]
              refine ⟨⟨l.nextKey, v, some nx, some i⟩, ?_, rfl, rfl⟩
              rw [findItem_setItem, if_neg hki, findItem_setItem,
                if_neg hknx, findItem_cons, if_pos rfl]
            · rw [segChk_cons, Bool.and_eq_true]
              constructor
              · rw [nodeChk_iff]
                refine ⟨{ itnx with prev_index := some l.nextKey }, ?_, rfl,
                  hnnx⟩
                rw [findItem_setItem, if_neg hinx.symm, findItem_setItem,
                  if_pos rfl, findItem_cons, if_neg hknx, hfnx]
                rfl
              · refine (segChk_congr l.items _ B' (some nx) none ?_).trans
                  hsegB'
                intro j hj
                have hji : j ≠ i :=
                  fun h => hiB (h ▸ List.mem_cons_of_mem nx hj)
                have hjnx : j ≠ nx := fun h => hnxB' (h ▸ hj)
                have hjk : l.nextKey ≠ j := fun h => hkfresh
                  (h ▸ List.mem_append_right A (List.mem_cons_of_mem i
                    (List.mem_cons_of_mem nx hj)))
                rw [findItem_setItem, if_neg hji, findItem_setItem,
                  if_neg hjnx, findItem_cons, if_neg hjk]

theorem headO_of_ne_nil (A : List Nat) (p q : Option Nat) (h : A ≠ []) :
    headO A p = headO A q := by
  cases A with
  | nil => exact absurd rfl h
  | cons a A' => rfl

theorem chainInv_insertBefore (l : LinkedList T) (ks : List Nat) (i : Nat)
    (v : T) (l' : LinkedList T) (k' : Nat) (hinv : ChainInv l ks)
    (hok : insert_before l i v = .ok (l', k')) : WF l' := by
  obtain ⟨hperm, hnodup, hfresh, hhead, htail, hchain⟩ := hinv
  cases hf : findItem l.items i with
  | none =>
    rw [insert_before, hf] at hok
    cases hok
  | some it0 =>
    have himem : i ∈ ks := hperm.mem_iff.mp (mem_keysOf_of_findItem _ _ _ hf)
    obtain ⟨A, B, hks⟩ := List.append_of_mem himem
    subst hks
    have hmid := List.nodup_middle.mp hnodup
    have hiAB : i ∉ A ++ B := (List.nodup_cons.mp hmid).1
    have hiA : i ∉ A := fun h => hiAB (List.mem_append_left B h)
    have hiB : i ∉ B := fun h => hiAB (List.mem_append_right A h)
    have hkfresh : l.nextKey ∉ A ++ i :: B :=
      fun h => lt_irrefl _ (hfresh _ h)
    have hki : l.nextKey ≠ i := by
      intro h
      rw [h] at hkfresh
      exact hkfresh (List.mem_append_right A (List.mem_cons_self i B))
    have hchain' := hchain
    rw [segChk_append, Bool.and_eq_true] at hchain'
    obtain ⟨hsegA, hrest⟩ := hchain'
    rw [segChk_cons, Bool.and_eq_true] at hrest
    obtain ⟨hnodei, hsegB⟩ := hrest
    rw [nodeChk_iff] at hnodei
    obtain ⟨it', hfi, hprev, hnext⟩ := hnodei
    rw [hf] at hfi
    injection hfi with hfi
    subst hfi
    rw [headO_cons] at hsegA
    simp only [insert_before, hf] at hok
    rcases List.eq_nil_or_concat A with hA | ⟨A', a, hA⟩
    · -- the anchor is the head: new chain is nextKey :: i :: B
      subst hA
      rw [lastO_nil] at hprev
      simp only [hprev] at hok
      have hfind2 : findItem
          ((l.nextKey, (⟨l.nextKey, v, some i, none⟩ : LinkedListItem T)) :: l.items)
          i = some it0 := by
        rw [findItem_cons, if_neg hki, hf]
      simp only [hfind2] at hok
      injection hok with hok
      injection hok with hok1 hok2
      refine ⟨l.nextKey :: i :: B, ?_⟩
      rw [← hok1]
      refine ⟨?_, ?_, ?_, rfl, ?_, ?_⟩
      · dsimp only
        rw [keysOf_setItem, keysOf_cons]
        exact hperm.cons l.nextKey
      · exact List.nodup_cons.mpr ⟨hkfresh, hnodup⟩
      · intro j hj
        dsimp only
        rcases List.mem_cons.mp hj with h | h
        · rw [h]
          exact Nat.lt_succ_self _
        · exact Nat.lt_succ_of_lt (hfresh j h)
      · dsimp only
        rw [htail, List.nil_append, List.getLast?_cons_cons]
      · dsimp only
        rw [segChk_cons, Bool.and_eq_true]
        constructor
        · rw [nodeChk_iff]
          refine ⟨⟨l.nextKey, v, some i, none⟩, ?_, rfl, rfl⟩
          rw [findItem_setItem, if_neg hki, findItem_cons, if_pos rfl]
        · rw [segChk_cons, Bool.and_eq_true]
          constructor
          · rw [nodeChk_iff]
            refine ⟨{ it0 with prev_index := some l.nextKey }, ?_, rfl,
              hnext⟩
            rw [findItem_setItem, if_pos rfl, findItem_cons, if_neg hki, hf]
            rfl
          · refine (segChk_congr l.items _ B (some i) none ?_).trans hsegB
            intro j hj
            have hji : j ≠ i := fun h => hiB (h ▸ hj)
            have hjk : l.nextKey ≠ j := fun h =>
              hkfresh (h ▸ List.mem_append_right []
                (List.mem_cons_of_mem i hj))
            rw [findItem_setItem, if_neg hji, findItem_cons, if_neg hjk]
    · -- the anchor has a predecessor a: new chain is A ++ nextKey :: i :: B
      rw [List.concat_eq_append] at hA
      subst hA
      rw [lastO_concat] at hprev
      simp only [hprev] at hok
      have haA' : a ∉ A' := by
        have h1 : (A' ++ [a]).Nodup := (List.nodup_append.mp hnodup).1
        rw [List.nodup_append] at h1
        exact fun h => h1.2.2 h (List.mem_singleton_self a)
      have hai : a ≠ i :=
        fun h => hiA (h ▸ List.mem_append_right A' (List.mem_singleton_self a))
      have hka : l.nextKey ≠ a := by
        intro h
        rw [h] at hkfresh
        exact hkfresh (List.mem_append_left (i :: B)
          (List.mem_append_right A' (List.mem_singleton_self a)))
      have hfind2 : findItem
          (setItem ((l.nextKey,
            (⟨l.nextKey, v, some i, some a⟩ : LinkedListItem T)) :: l.items) a
            (fun x => { x with next_index := some l.nextKey }))
          i = some it0 := by
        rw [findItem_setItem, if_neg hai.symm, findItem_cons, if_neg hki, hf]
      simp only [hfind2] at hok
      injection hok with hok
      injection hok with hok1 hok2
      -- old facts about the node a
      rw [segChk_append, Bool.and_eq_true] at hsegA
      obtain ⟨hsegA', hsega⟩ := hsegA
      rw [segChk_cons, segChk_nil, Bool.and_true] at hsega
      rw [nodeChk_iff] at hsega
      obtain ⟨ita, hfa, hpa, hna⟩ := hsega
      rw [headO_cons] at hsegA'
      rw [headO_nil] at hna
      have hmidperm : ((A' ++ [a]) ++ l.nextKey :: i :: B).Perm
          (l.nextKey :: ((A' ++ [a]) ++ i :: B)) := List.perm_middle
      refine ⟨(A' ++ [a]) ++ l.nextKey :: i :: B, ?_⟩
      rw [← hok1]
      refine ⟨?_, ?_, ?_, ?_, ?_, ?_⟩
      · dsimp only
        rw [keysOf_setItem, keysOf_setItem, keysOf_cons]
        exact (hperm.cons l.nextKey).trans hmidperm.symm
      · exact hmidperm.nodup_iff.mpr (List.nodup_cons.mpr ⟨hkfresh, hnodup⟩)
      · intro j hj
        dsimp only
        rcases List.mem_cons.mp (hmidperm.mem_iff.mp hj) with h | h
        · rw [h]
          exact Nat.lt_succ_self _
        · exact Nat.lt_succ_of_lt (hfresh j h)
      · dsimp only
        rw [hhead, head?_append_cons, head?_append_cons]
        exact headO_of_ne_nil _ _ _ (by simp)
      · dsimp only
        rw [htail, getLast?_append_right (A' ++ [a]) (i :: B) (by simp),
          getLast?_append_right (A' ++ [a]) (l.nextKey :: i :: B) (by simp),
          List.getLast?_cons_cons]
      · dsimp only
        rw [segChk_append, Bool.and_eq_true]
        constructor
        · -- prefix A' ++ [a] with the node a retargeted at nextKey
          rw [segChk_append, Bool.and_eq_true]
          constructor
          · refine (segChk_congr l.items _ A' none _ ?_).trans hsegA'
            intro j hj
            have hja : j ≠ a := fun h => haA' (h ▸ hj)
            have hji : j ≠ i :=
              fun h => hiA (h ▸ List.mem_append_left [a] hj)
            have hjk : l.nextKey ≠ j := fun h => hkfresh
              (h ▸ List.mem_append_left (i :: B)
                (List.mem_append_left [a] hj))
            rw [findItem_setItem, if_neg hji, findItem_setItem, if_neg hja,
              findItem_cons, if_neg hjk]
          · rw [segChk_cons, segChk_nil, Bool.and_true, nodeChk_iff]
            refine ⟨{ ita with next_index := some l.nextKey }, ?_, hpa, rfl⟩
            rw [findItem_setItem, if_neg hai, findItem_setItem, if_pos rfl,
              findItem_cons, if_neg hka, hfa]
            rfl
        · rw [segChk_cons, Bool.and_eq_true]
          constructor
          · rw [nodeChk_iff]
            refine ⟨⟨l.nextKey, v, some i, some a⟩, ?_, ?_, rfl⟩
            · rw [findItem_setItem, if_neg hki, findItem_setItem,
                if_neg hka, findItem_cons, if_pos rfl]
            · rw [lastO_concat]
          · rw [segChk_cons, Bool.and_eq_true]
            constructor
            · rw [nodeChk_iff]
              refine ⟨{ it0 with prev_index := some l.nextKey }, ?_, rfl,
                hnext⟩
              rw [findItem_setItem, if_pos rfl, findItem_setItem,
                if_neg hai.symm, findItem_cons, if_neg hki, hf]
              rfl
            · refine (segChk_congr l.items _ B (some i) none ?_).trans hsegB
              intro j hj
              have hji : j ≠ i := fun h => hiB (h ▸ hj)
              have hja : j ≠ a := by
                intro h
                subst h
                rw [List.nodup_append] at hnodup
                exact hnodup.2.2
                  (List.mem_append_right A' (List.mem_singleton_self j))
                  (List.mem_cons_of_mem i hj)
              have hjk : l.nextKey ≠ j := fun h => hkfresh
                (h ▸ List.mem_append_right (A' ++ [a])
                  (List.mem_cons_of_mem i hj))
              rw [findItem_setItem, if_neg hji, findItem_setItem,
                if_neg hja, findItem_cons, if_neg hjk]

/-- Observation used by the pop/remove equivalence: `remove` followed by
projecting the removed node to its value. -/
def removeValue (l : LinkedList T) (i : Nat) : Option T × LinkedList T :=
  ((remove l i).1.map (fun it => it.value), (remove l i).2)

theorem popBack_eq_removeOp (l : LinkedList T) (ks : List Nat)
    (hinv : ChainInv l ks) :
    pop_back l = (match l.tail with
      | none => (none, l)
      | some t => removeValue l t) := by
  obtain ⟨hperm, hnodup, hfresh, hhead, htail, hchain⟩ := hinv
  cases htl : l.tail with
  | none => simp only [pop_back, htl]
  | some t =>
    obtain ⟨A, hA⟩ := getLast?_some_decomp ks t (by rw [← htail, htl])
    subst hA
    rw [segChk_append, Bool.and_eq_true] at hchain
    obtain ⟨hsegA, hsegt⟩ := hchain
    rw [segChk_cons, segChk_nil, Bool.and_true, nodeChk_iff] at hsegt
    obtain ⟨itt, hft, hpt, hnt⟩ := hsegt
    rw [headO_nil] at hnt
    simp only [pop_back, removeValue, remove, htl, hft, hnt]
    cases hpv : itt.prev_index with
    | none =>
      simp only [hpv]
      rfl
    | some p =>
      simp only [hpv]
      rfl

theorem popFront_eq_removeOp (l : LinkedList T) (ks : List Nat)
    (hinv : ChainInv l ks) :
    pop_front l = .ok (match l.head with
      | none => (none, l)
      | some hd => removeValue l hd) := by
  obtain ⟨hperm, hnodup, hfresh, hhead, htail, hchain⟩ := hinv
  cases hhd : l.head with
  | none => simp only [pop_front, hhd]
  | some hd =>
    obtain ⟨rest, hks⟩ : ∃ rest, ks = hd :: rest := by
      cases hks : ks with
      | nil =>
        rw [hks] at hhead
        rw [hhd] at hhead
        cases hhead
      | cons a rest =>
        rw [hks] at hhead
        rw [hhd] at hhead
        injection hhead with h
        exact ⟨rest, by rw [h]⟩
    subst hks
    rw [segChk_cons, Bool.and_eq_true] at hchain
    obtain ⟨hnodeh, hsegrest⟩ := hchain
    rw [nodeChk_iff] at hnodeh
    obtain ⟨ithd, hfh, hph, hnh⟩ := hnodeh
    simp only [pop_front, removeValue, remove, hhd, hfh, hph]
    cases hrest : rest with
    | nil =>
      rw [hrest] at hnh
      rw [headO_nil] at hnh
      simp only [hnh]
      rfl
    | cons nx rest2 =>
      rw [hrest] at hnh
      rw [headO_cons] at hnh
      have hhdnx : hd ≠ nx := by
        intro h
        rw [List.nodup_cons, hrest] at hnodup
        exact hnodup.1 (h ▸ List.mem_cons_self nx rest2)
      have hfnx : ∃ itnx, findItem l.items nx = some itnx := by
        apply findItem_exists_of_mem
        apply (hperm.mem_iff).mpr
        rw [hrest]
        exact List.mem_cons_of_mem hd (List.mem_cons_self nx rest2)
      obtain ⟨itnx, hfnx⟩ := hfnx
      have hfnx1 : findItem (eraseItem l.items hd) nx = some itnx := by
        rw [findItem_eraseItem, if_neg (fun h => hhdnx h.symm), hfnx]
      simp only [hnh, hfnx1]
      rfl

theorem wf_popBack (l : LinkedList T) (h : WF l) : WF (pop_back l).2 := by
  obtain ⟨ks, hinv⟩ := h
  rw [popBack_eq_removeOp l ks hinv]
  cases htl : l.tail with
  | none => exact ⟨ks, hinv⟩
  | some t => exact chainInv_removeOp l ks t hinv

theorem wf_popFront (l : LinkedList T) (r : Option T) (l' : LinkedList T)
    (h : WF l) (hok : pop_front l = .ok (r, l')) : WF l' := by
  obtain ⟨ks, hinv⟩ := h
  rw [popFront_eq_removeOp l ks hinv] at hok
  injection hok with hok
  cases hhd : l.head with
  | none =>
    rw [hhd] at hok
    injection hok with hok1 hok2
    rw [← hok2]
    exact ⟨ks, hinv⟩
  | some hd =>
    rw [hhd] at hok
    injection hok with hok1 hok2
    rw [← hok2]
    exact chainInv_removeOp l ks hd hinv

theorem wf_pushBack (l : LinkedList T) (v : T) (h : WF l) :
    WF (push_back l v).2 := by
  obtain ⟨ks, hinv⟩ := h
  exact ⟨ks ++ [l.nextKey], chainInv_pushBack l ks v hinv⟩

theorem wf_pushFront (l : LinkedList T) (v : T) (h : WF l) :
    WF (push_front l v).2 := by
  obtain ⟨ks, hinv⟩ := h
  exact ⟨l.nextKey :: ks, chainInv_pushFront l ks v hinv⟩

theorem wf_removeOp (l : LinkedList T) (i : Nat) (h : WF l) :
    WF (remove l i).2 := by
  obtain ⟨ks, hinv⟩ := h
  exact chainInv_removeOp l ks i hinv

/-- The first `walk_next` call of `split_off` never yields an index:
its context is the freshly built one-element (or empty) `new_list`, whose
single node has no successor. -/
theorem walkNext_fresh_single (v : T) (c : Nat) :
    (walk_next (push_back (new T) v).2 (some c)).2 = none := by
  show (walk_next { head := some 0, tail := some 0, nextKey := 1, items := [(0, ⟨0, v, none, none⟩)] } (some c)).2 = none
  unfold walk_next
  dsimp only
  rw [findItem_cons]
  by_cases hc : 0 = c
  · rw [if_pos hc]
  · rw [if_neg hc]
    rfl

theorem walkNext_empty (c : Nat) :
    (walk_next (new T) (some c)).2 = none := rfl

theorem splitOffLoop_stop (self new_list : LinkedList T) (cur : Option Nat)
    (fuel : Nat) (h : (walk_next new_list cur).2 = none) :
    splitOffLoop self new_list cur fuel = (new_list, self) := by
  cases fuel with
  | zero => rfl
  | succ f =>
    rw [splitOffLoop]
    rw [h]

/-- What `split_off` actually computes: because the walker is advanced
against `new_list` instead of `self`, the loop body never runs, and only
the anchor node moves. -/
theorem splitOff_eq (l : LinkedList T) (i : Nat) :
    split_off l i =
      ((match (remove l i).1 with
        | some it => (push_back (new T) it.value).2
        | none => new T), (remove l i).2) := by
  unfold split_off
  cases hr : (remove l i).1 with
  | none =>
    simp only [hr]
    exact splitOffLoop_stop _ _ _ _ (walkNext_empty i)
  | some it =>
    simp only [hr]
    exact splitOffLoop_stop _ _ _ _ (walkNext_fresh_single it.value i)

theorem wf_splitOff_rest (l : LinkedList T) (i : Nat) (h : WF l) :
    WF (split_off l i).2 := by
  rw [splitOff_eq]
  exact wf_removeOp l i h

theorem wf_splitOff_new (l : LinkedList T) (i : Nat) :
    WF (split_off l i).1 := by
  rw [splitOff_eq]
  cases hr : (remove l i).1 with
  | none => exact wf_empty T
  | some it => exact wf_pushBack (new T) it.value (wf_empty T)

theorem wf_retainLoop (fuel : Nat) :
    ∀ (l : LinkedList T) (cur : Option Nat) (f : T → Bool)
      (l' : LinkedList T), WF l → retain_loop l cur f fuel = some l' →
      WF l' := by
  induction fuel with
  | zero =>
    intro l cur f l' hwf hsome
    cases hsome
  | succ fl ih =>
    intro l cur f l' hwf hsome
    cases cur with
    | none =>
      rw [retain_loop] at hsome
      injection hsome with hsome
      rw [← hsome]
      exact hwf
    | some idx =>
      rw [retain_loop] at hsome
      cases hf : findItem l.items idx with
      | none =>
        rw [hf] at hsome
        cases hsome
      | some it =>
        rw [hf] at hsome
        refine ih _ _ f l' ?_ hsome
        by_cases hp : f it.value
        · rw [if_pos hp]
          exact hwf
        · rw [if_neg hp]
          exact wf_removeOp l idx hwf

theorem wf_retainMut (l : LinkedList T) (f : T → Bool) (l' : LinkedList T)
    (h : WF l) (hsome : retain_mut l f = some l') : WF l' :=
  wf_retainLoop (l.items.length + 1) l l.head f l' h hsome

theorem wf_extendAux (vs : List T) :
    ∀ (acc : List Nat) (l : LinkedList T), WF l →
      WF (vs.foldl (fun acc v =>
        let r := push_back acc.2 v
        (acc.1 ++ [r.1], r.2)) (acc, l)).2 := by
  induction vs with
  | nil =>
    intro acc l hwf
    exact hwf
  | cons v vs' ih =>
    intro acc l hwf
    rw [List.foldl_cons]
    exact ih _ _ (wf_pushBack l v hwf)

theorem wf_extendOp (l : LinkedList T) (vs : List T) (h : WF l) :
    WF (extend l vs).2 :=
  wf_extendAux vs [] l h

/-- The states reachable from the empty list by the public operations of
the list (a panicking operation produces no state). -/
inductive Reachable : LinkedList T → Prop where
  | empty : Reachable (new T)
  | push_back (l : LinkedList T) (v : T) :
      Reachable l → Reachable (push_back l v).2
  | push_front (l : LinkedList T) (v : T) :
      Reachable l → Reachable (push_front l v).2
  | insert_after (l : LinkedList T) (i : Nat) (v : T) (l' : LinkedList T)
      (k' : Nat) : Reachable l → insert_after l i v = .ok (l', k') →
      Reachable l'
  | insert_before (l : LinkedList T) (i : Nat) (v : T) (l' : LinkedList T)
      (k' : Nat) : Reachable l → insert_before l i v = .ok (l', k') →
      Reachable l'
  | pop_back (l : LinkedList T) : Reachable l → Reachable (pop_back l).2
  | pop_front (l : LinkedList T) (r : Option T) (l' : LinkedList T) :
      Reachable l → pop_front l = .ok (r, l') → Reachable l'
  | remove (l : LinkedList T) (i : Nat) :
      Reachable l → Reachable (remove l i).2
  | extend (l : LinkedList T) (vs : List T) :
      Reachable l → Reachable (extend l vs).2
  | split_off_rest (l : LinkedList T) (i : Nat) :
      Reachable l → Reachable (split_off l i).2
  | split_off_new (l : LinkedList T) (i : Nat) :
      Reachable l → Reachable (split_off l i).1
  | retain_mut (l : LinkedList T) (f : T → Bool) (l' : LinkedList T) :
      Reachable l → retain_mut l f = some l' → Reachable l'

/-- Every reachable state satisfies the structural invariant. -/
theorem reachable_wf (l : LinkedList T) (h : Reachable l) : WF l := by
  induction h with
  | empty => exact wf_empty T
  | push_back l v _ ih => exact wf_pushBack l v ih
  | push_front l v _ ih => exact wf_pushFront l v ih
  | insert_after l i v l2 k2 _ hok ih =>
    obtain ⟨ks, hinv⟩ := ih
    exact chainInv_insertAfter l ks i v l2 k2 hinv hok
  | insert_before l i v l2 k2 _ hok ih =>
    obtain ⟨ks, hinv⟩ := ih
    exact chainInv_insertBefore l ks i v l2 k2 hinv hok
  | pop_back l _ ih => exact wf_popBack l ih
  | pop_front l r l2 _ hok ih => exact wf_popFront l r l2 ih hok
  | remove l i _ ih => exact wf_removeOp l i ih
  | extend l vs _ ih => exact wf_extendOp l vs ih
  | split_off_rest l i _ ih => exact wf_splitOff_rest l i ih
  | split_off_new l i _ ih => exact wf_splitOff_new l i
  | retain_mut l f l2 _ hok ih => exact wf_retainMut l f l2 ih hok

/-! ## Helper lemmas for the round-trip claim -/

theorem eraseItem_eq_self (m : List (Nat × LinkedListItem T)) (i : Nat)
    (h : i ∉ keysOf m) : eraseItem m i = m := by
  unfold eraseItem
  apply List.filter_eq_self.mpr
  intro p hp
  rw [bne_iff_ne]
  intro he
  exact h (he ▸ List.mem_map_of_mem Prod.fst hp)

theorem length_eraseItem_live (m : List (Nat × LinkedListItem T)) (i : Nat)
    (it : LinkedListItem T) (hf : findItem m i = some it)
    (hnd : (keysOf m).Nodup) : (eraseItem m i).length + 1 = m.length := by
  induction m with
  | nil => cases hf
  | cons hd tl ih =>
    obtain ⟨a, x⟩ := hd
    rw [keysOf_cons, List.nodup_cons] at hnd
    rw [eraseItem_cons]
    by_cases hai : a = i
    · rw [if_pos hai]
      rw [eraseItem_eq_self tl i (hai ▸ hnd.1)]
      rfl
    · rw [if_neg hai]
      rw [findItem_cons, if_neg hai] at hf
      rw [List.length_cons, List.length_cons, ih hf hnd.2]

theorem lenOp_pushBack (l : LinkedList T) (v : T) :
    len (push_back l v).2 = len l + 1 := by
  cases htl : l.tail with
  | none => simp [push_back, htl, len]
  | some t => simp [push_back, htl, len, length_setItem, setItem]

theorem lenOp_removeOp_live (l : LinkedList T) (i : Nat) (it : LinkedListItem T)
    (hf : findItem l.items i = some it)
    (hnd : (keysOf l.items).Nodup) :
    len (remove l i).2 + 1 = len l := by
  simp only [remove, hf]
  cases hnx : it.next_index with
  | none =>
    cases hpv : it.prev_index with
    | none =>
      simp only [hnx, hpv, len]
      exact length_eraseItem_live l.items i it hf hnd
    | some p =>
      simp only [hnx, hpv, len]
      rw [length_setItem]
      exact length_eraseItem_live l.items i it hf hnd
  | some nx =>
    cases hpv : it.prev_index with
    | none =>
      simp only [hnx, hpv, len]
      rw [length_setItem]
      exact length_eraseItem_live l.items i it hf hnd
    | some p =>
      simp only [hnx, hpv, len]
      rw [length_setItem, length_setItem]
      exact length_eraseItem_live l.items i it hf hnd

theorem removeOp_not_found_after (l : LinkedList T) (i : Nat)
    (it0 : LinkedListItem T) (hf : findItem l.items i = some it0) :
    findItem ((remove l i).2).items i = none := by
  simp only [remove, hf]
  cases hnx : it0.next_index with
  | none =>
    cases hpv : it0.prev_index with
    | none =>
      simp only [hnx, hpv]
      simp [findItem_eraseItem]
    | some p =>
      simp only [hnx, hpv]
      simp [findItem_setItem, findItem_eraseItem]
  | some nx =>
    cases hpv : it0.prev_index with
    | none =>
      simp only [hnx, hpv]
      simp [findItem_setItem, findItem_eraseItem]
    | some p =>
      simp only [hnx, hpv]
      simp [findItem_setItem, findItem_eraseItem]

/-! ## Dead keys stay dead

Once a key is absent from the arena and below the allocator counter, no
later operation on the same list can make it resolve again: operations
only ever insert the current counter value as a key. -/

/-- The key `j` is dead in `l`: it does not resolve, and it can never be
minted again (it is below the allocator counter). -/
def KeyDead (l : LinkedList T) (j : Nat) : Prop :=
  findItem l.items j = none ∧ j < l.nextKey

theorem findItem_none_setItem (m : List (Nat × LinkedListItem T)) (k : Nat)
    (f : LinkedListItem T → LinkedListItem T) (j : Nat) (hn : findItem m j = none) :
    findItem (setItem m k f) j = none := by
  rw [findItem_setItem]
  by_cases hj : j = k
  · rw [if_pos hj, hn]
    rfl
  · rw [if_neg hj]
    exact hn

theorem findItem_none_eraseItem (m : List (Nat × LinkedListItem T)) (k : Nat)
    (j : Nat) (hn : findItem m j = none) :
    findItem (eraseItem m k) j = none := by
  rw [findItem_eraseItem]
  by_cases hj : j = k
  · rw [if_pos hj]
  · rw [if_neg hj]
    exact hn

theorem findItem_none_cons (k : Nat) (it : LinkedListItem T)
    (m : List (Nat × LinkedListItem T)) (j : Nat) (hk : k ≠ j)
    (hn : findItem m j = none) : findItem ((k, it) :: m) j = none := by
  rw [findItem_cons, if_neg hk]
  exact hn

theorem keyDead_pushBack (l : LinkedList T) (v : T) (j : Nat)
    (hd : KeyDead l j) : KeyDead (push_back l v).2 j := by
  obtain ⟨hn, hlt⟩ := hd
  have hne : l.nextKey ≠ j := fun h => lt_irrefl _ (h ▸ hlt)
  cases htl : l.tail with
  | none =>
    simp only [push_back, htl]
    unfold KeyDead
    dsimp only
    exact ⟨findItem_none_cons _ _ _ _ hne hn, Nat.lt_succ_of_lt hlt⟩
  | some t =>
    simp only [push_back, htl]
    unfold KeyDead
    dsimp only
    exact ⟨findItem_none_setItem _ _ _ _
      (findItem_none_cons _ _ _ _ hne hn), Nat.lt_succ_of_lt hlt⟩

theorem keyDead_pushFront (l : LinkedList T) (v : T) (j : Nat)
    (hd : KeyDead l j) : KeyDead (push_front l v).2 j := by
  obtain ⟨hn, hlt⟩ := hd
  have hne : l.nextKey ≠ j := fun h => lt_irrefl _ (h ▸ hlt)
  cases hhd : l.head with
  | none =>
    simp only [push_front, hhd]
    unfold KeyDead
    dsimp only
    exact ⟨findItem_none_cons _ _ _ _ hne hn, Nat.lt_succ_of_lt hlt⟩
  | some hd0 =>
    simp only [push_front, hhd]
    unfold KeyDead
    dsimp only
    exact ⟨findItem_none_setItem _ _ _ _
      (findItem_none_cons _ _ _ _ hne hn), Nat.lt_succ_of_lt hlt⟩

theorem keyDead_removeOp (l : LinkedList T) (i : Nat) (j : Nat)
    (hd : KeyDead l j) : KeyDead (remove l i).2 j := by
  obtain ⟨hn, hlt⟩ := hd
  cases hf : findItem l.items i with
  | none =>
    rw [removeOp_stale l i hf]
    exact ⟨hn, hlt⟩
  | some it =>
    simp only [remove, hf]
    cases hnx : it.next_index with
    | none =>
      cases hpv : it.prev_index with
      | none =>
        simp only [hnx, hpv]
        unfold KeyDead
        dsimp only
        exact ⟨findItem_none_eraseItem _ _ _ hn, hlt⟩
      | some p =>
        simp only [hnx, hpv]
        unfold KeyDead
        dsimp only
        exact ⟨findItem_none_setItem _ _ _ _
          (findItem_none_eraseItem _ _ _ hn), hlt⟩
    | some nx =>
      cases hpv : it.prev_index with
      | none =>
        simp only [hnx, hpv]
        unfold KeyDead
        dsimp only
        exact ⟨findItem_none_setItem _ _ _ _
          (findItem_none_eraseItem _ _ _ hn), hlt⟩
      | some p =>
        simp only [hnx, hpv]
        unfold KeyDead
        dsimp only
        exact ⟨findItem_none_setItem _ _ _ _ (findItem_none_setItem _ _ _ _
          (findItem_none_eraseItem _ _ _ hn)), hlt⟩

theorem keyDead_insertAfter (l : LinkedList T) (i : Nat) (v : T)
    (l' : LinkedList T) (k' : Nat) (hok : insert_after l i v = .ok (l', k'))
    (j : Nat) (hd : KeyDead l j) : KeyDead l' j := by
  obtain ⟨hn, hlt⟩ := hd
  have hne : l.nextKey ≠ j := fun h => lt_irrefl _ (h ▸ hlt)
  cases hf : findItem l.items i with
  | none =>
    rw [insert_after, hf] at hok
    cases hok
  | some it0 =>
    simp only [insert_after, hf] at hok
    cases hnx : it0.next_index with
    | none =>
      simp only [hnx] at hok
      injection hok with hok
      injection hok with hok1 hok2
      rw [← hok1]
      unfold KeyDead
      dsimp only
      exact ⟨findItem_none_setItem _ _ _ _
        (findItem_none_cons _ _ _ _ hne hn), Nat.lt_succ_of_lt hlt⟩
    | some nx =>
      simp only [hnx] at hok
      injection hok with hok
      injection hok with hok1 hok2
      rw [← hok1]
      unfold KeyDead
      dsimp only
      exact ⟨findItem_none_setItem _ _ _ _ (findItem_none_setItem _ _ _ _
        (findItem_none_cons _ _ _ _ hne hn)), Nat.lt_succ_of_lt hlt⟩

theorem keyDead_insertBefore (l : LinkedList T) (i : Nat) (v : T)
    (l' : LinkedList T) (k' : Nat) (hok : insert_before l i v = .ok (l', k'))
    (j : Nat) (hd : KeyDead l j) : KeyDead l' j := by
  obtain ⟨hn, hlt⟩ := hd
  have hne : l.nextKey ≠ j := fun h => lt_irrefl _ (h ▸ hlt)
  cases hf : findItem l.items i with
  | none =>
    rw [insert_before, hf] at hok
    cases hok
  | some it0 =>
    simp only [insert_before, hf] at hok
    cases hpv : it0.prev_index with
    | none =>
      simp only [hpv] at hok
      split at hok
      · cases hok
      · injection hok with hok
        injection hok with hok1 hok2
        rw [← hok1]
        unfold KeyDead
        dsimp only
        exact ⟨findItem_none_setItem _ _ _ _
          (findItem_none_cons _ _ _ _ hne hn), Nat.lt_succ_of_lt hlt⟩
    | some p =>
      simp only [hpv] at hok
      split at hok
      · cases hok
      · injection hok with hok
        injection hok with hok1 hok2
        rw [← hok1]
        unfold KeyDead
        dsimp only
        exact ⟨findItem_none_setItem _ _ _ _ (findItem_none_setItem _ _ _ _
          (findItem_none_cons _ _ _ _ hne hn)), Nat.lt_succ_of_lt hlt⟩

theorem keyDead_popBack (l : LinkedList T) (j : Nat) (hd : KeyDead l j) :
    KeyDead (pop_back l).2 j := by
  obtain ⟨hn, hlt⟩ := hd
  cases htl : l.tail with
  | none =>
    simp only [pop_back, htl]
    exact ⟨hn, hlt⟩
  | some t =>
    cases hf : findItem l.items t with
    | none =>
      simp only [pop_back, htl, hf]
      exact ⟨hn, hlt⟩
    | some it =>
      simp only [pop_back, htl, hf]
      cases hpv : it.prev_index with
      | none =>
        simp only [hpv]
        unfold KeyDead
        dsimp only
        exact ⟨findItem_none_eraseItem _ _ _ hn, hlt⟩
      | some p =>
        simp only [hpv]
        unfold KeyDead
        dsimp only
        exact ⟨findItem_none_setItem _ _ _ _
          (findItem_none_eraseItem _ _ _ hn), hlt⟩

theorem keyDead_popFront (l : LinkedList T) (r : Option T)
    (l' : LinkedList T) (hok : pop_front l = .ok (r, l')) (j : Nat)
    (hd : KeyDead l j) : KeyDead l' j := by
  obtain ⟨hn, hlt⟩ := hd
  cases hhd : l.head with
  | none =>
    simp only [pop_front, hhd] at hok
    injection hok with hok
    injection hok with hok1 hok2
    rw [← hok2]
    exact ⟨hn, hlt⟩
  | some hd0 =>
    cases hf : findItem l.items hd0 with
    | none =>
      simp only [pop_front, hhd, hf] at hok
      injection hok with hok
      injection hok with hok1 hok2
      rw [← hok2]
      exact ⟨hn, hlt⟩
    | some it =>
      simp only [pop_front, hhd, hf] at hok
      cases hnx : it.next_index with
      | none =>
        simp only [hnx] at hok
        injection hok with hok
        injection hok with hok1 hok2
        rw [← hok2]
        unfold KeyDead
        dsimp only
        exact ⟨findItem_none_eraseItem _ _ _ hn, hlt⟩
      | some nx =>
        simp only [hnx] at hok
        split at hok
        · cases hok
        · injection hok with hok
          injection hok with hok1 hok2
          rw [← hok2]
          unfold KeyDead
          dsimp only
          exact ⟨findItem_none_setItem _ _ _ _
            (findItem_none_eraseItem _ _ _ hn), hlt⟩

theorem keyDead_extendAux (vs : List T) :
    ∀ (acc : List Nat) (l : LinkedList T) (j : Nat), KeyDead l j →
      KeyDead (vs.foldl (fun acc v =>
        let r := push_back acc.2 v
        (acc.1 ++ [r.1], r.2)) (acc, l)).2 j := by
  induction vs with
  | nil =>
    intro acc l j hd
    exact hd
  | cons v vs' ih =>
    intro acc l j hd
    rw [List.foldl_cons]
    exact ih _ _ j (keyDead_pushBack l v j hd)

theorem keyDead_extendOp (l : LinkedList T) (vs : List T) (j : Nat)
    (hd : KeyDead l j) : KeyDead (extend l vs).2 j :=
  keyDead_extendAux vs [] l j hd

theorem keyDead_splitOff (l : LinkedList T) (i : Nat) (j : Nat)
    (hd : KeyDead l j) : KeyDead (split_off l i).2 j := by
  rw [splitOff_eq]
  exact keyDead_removeOp l i j hd

theorem keyDead_retainLoop (fuel : Nat) :
    ∀ (l : LinkedList T) (cur : Option Nat) (f : T → Bool)
      (l' : LinkedList T) (j : Nat), KeyDead l j →
      retain_loop l cur f fuel = some l' → KeyDead l' j := by
  induction fuel with
  | zero =>
    intro l cur f l' j hd hsome
    cases hsome
  | succ fl ih =>
    intro l cur f l' j hd hsome
    cases cur with
    | none =>
      rw [retain_loop] at hsome
      injection hsome with hsome
      rw [← hsome]
      exact hd
    | some idx =>
      rw [retain_loop] at hsome
      cases hf : findItem l.items idx with
      | none =>
        rw [hf] at hsome
        cases hsome
      | some it =>
        rw [hf] at hsome
        refine ih _ _ f l' j ?_ hsome
        by_cases hp : f it.value
        · rw [if_pos hp]
          exact hd
        · rw [if_neg hp]
          exact keyDead_removeOp l idx j hd

theorem keyDead_retainMut (l : LinkedList T) (f : T → Bool)
    (l' : LinkedList T) (j : Nat) (hd : KeyDead l j)
    (hsome : retain_mut l f = some l') : KeyDead l' j :=
  keyDead_retainLoop (l.items.length + 1) l l.head f l' j hd hsome

/-- One public operation applied to a list, yielding the same list's next
state (the list returned by `split_off` is a different list and is not a
step of this one). -/
inductive SameListStep : LinkedList T → LinkedList T → Prop where
  | push_back (l : LinkedList T) (v : T) : SameListStep l (push_back l v).2
  | push_front (l : LinkedList T) (v : T) : SameListStep l (push_front l v).2
  | insert_after (l : LinkedList T) (i : Nat) (v : T) (l' : LinkedList T)
      (k' : Nat) : insert_after l i v = .ok (l', k') → SameListStep l l'
  | insert_before (l : LinkedList T) (i : Nat) (v : T) (l' : LinkedList T)
      (k' : Nat) : insert_before l i v = .ok (l', k') → SameListStep l l'
  | pop_back (l : LinkedList T) : SameListStep l (pop_back l).2
  | pop_front (l : LinkedList T) (r : Option T) (l' : LinkedList T) :
      pop_front l = .ok (r, l') → SameListStep l l'
  | remove (l : LinkedList T) (i : Nat) : SameListStep l (remove l i).2
  | extend (l : LinkedList T) (vs : List T) :
      SameListStep l (extend l vs).2
  | split_off (l : LinkedList T) (i : Nat) :
      SameListStep l (split_off l i).2
  | retain_mut (l : LinkedList T) (f : T → Bool) (l' : LinkedList T) :
      retain_mut l f = some l' → SameListStep l l'

/-- Any finite sequence of further public operations on the same list. -/
inductive Evolves : LinkedList T → LinkedList T → Prop where
  | refl (l : LinkedList T) : Evolves l l
  | tail (l1 l2 l3 : LinkedList T) :
      Evolves l1 l2 → SameListStep l2 l3 → Evolves l1 l3

theorem keyDead_step (l l' : LinkedList T) (j : Nat)
    (hs : SameListStep l l') (hd : KeyDead l j) : KeyDead l' j :=
  match hs with
  | .push_back _ v => keyDead_pushBack l v j hd
  | .insert_after _ i v _ k2 hok => keyDead_insertAfter l i v l' k2 hok j hd
  | .push_front _ v => keyDead_pushFront l v j hd
  | .insert_before _ i v _ k2 hok => keyDead_insertBefore l i v l' k2 hok j hd
  | .pop_back _ => keyDead_popBack l j hd
  | .pop_front _ r _ hok => keyDead_popFront l r l' hok j hd
  | .remove _ i => keyDead_removeOp l i j hd
  | .extend _ vs => keyDead_extendOp l vs j hd
  | .split_off _ i => keyDead_splitOff l i j hd
  | .retain_mut _ f _ hok => keyDead_retainMut l f l' j hd hok

theorem keyDead_evolves (l l' : LinkedList T) (j : Nat)
    (he : Evolves l l') (hd : KeyDead l j) : KeyDead l' j := by
  induction he with
  | refl => exact hd
  | tail l2 l3 hev hs ih => exact keyDead_step l2 l3 j hs ih

theorem removeOp_nextKey (l : LinkedList T) (i : Nat) :
    (remove l i).2.nextKey = l.nextKey := by
  cases hf : findItem l.items i with
  | none => rw [removeOp_stale l i hf]
  | some it =>
    simp only [remove, hf]
    cases hnx : it.next_index with
    | none =>
      cases hpv : it.prev_index with
      | none => simp only [hnx, hpv]
      | some p => simp only [hnx, hpv]
    | some nx =>
      cases hpv : it.prev_index with
      | none => simp only [hnx, hpv]
      | some p => simp only [hnx, hpv]

/-! ## The claims -/

/-- C1 (code bug): `split_off(h)` is documented and specified to move `h`
and every node reachable forward from it into the returned list, leaving
only the nodes strictly before `h` in the original.  The code advances its
walker against `new_list` instead of `self`, so the loop never runs: on
the list `[1, 2, 3]` (pushed back in that order, keys 0, 1, 2),
`split_off` at the key of `2` returns a list holding only `[2]` and leaves
`[1, 3]` in the original, instead of returning `[2, 3]` and leaving `[1]`. -/
theorem splitOff_moves_only_anchor :
    valuesOf (split_off
      (push_back (push_back (push_back (new Nat) 1).2 2).2 3).2 1).1
      = [2] ∧
    valuesOf (split_off
      (push_back (push_back (push_back (new Nat) 1).2 2).2 3).2 1).2
      = [1, 3] := by
  decide

/-- C2 (code bug): the spec says `nth(n)` returns `None` whenever
`n ≥ len`, including on the empty list, and never panics.  On the empty
list the code takes the `else` branch and evaluates `self.tail.unwrap()`,
which panics (modelled as `.error ()`). -/
theorem nth_panics_on_empty_list :
    nth (new Nat) 0 = .error () := rfl

/-- C3 (code bug): `next_of_mut` is documented to return the item after
the given index, but the code reads `prev_index`.  On the list `[10, 20]`
(keys 0, 1), `next_of_mut(0)` returns `none` while `next_of(0)` designates
the node of `20`; `prev_of_mut` does follow `prev_index` as intended. -/
theorem nextOfMut_follows_prev_index_bug :
    next_of_mut (push_back (push_back (new Nat) 10).2 20).2 0 = none ∧
    next_of (push_back (push_back (new Nat) 10).2 20).2 0 =
      some ⟨1, 20, none, some 0⟩ ∧
    prev_of_mut (push_back (push_back (new Nat) 10).2 20).2 1 =
      some ⟨0, 10, some 1, none⟩ := by
  decide

/-- C4: after `remove(h)` succeeds, a second `remove(h)` on the resulting
list returns `None` and leaves it unchanged, and `get(h)` returns `None`;
moreover (for a well-formed starting list) the stale handle never resolves
again under any further sequence of public operations on that list. -/
theorem remove_stale_handle_safe (l : LinkedList T) (i : Nat)
    (it : LinkedListItem T) (l' : LinkedList T)
    (h : remove l i = (some it, l')) :
    (remove l' i = (none, l') ∧ get l' i = none) ∧
    (WF l → ∀ l'' : LinkedList T, Evolves l' l'' →
      remove l'' i = (none, l'') ∧ get l'' i = none) := by
  have h1 : (remove l i).1 = some it := by rw [h]
  have h2 : (remove l i).2 = l' := by rw [h]
  cases hf : findItem l.items i with
  | none =>
    rw [removeOp_stale l i hf] at h1
    cases h1
  | some it0 =>
    have hnone : findItem l'.items i = none := by
      rw [← h2]
      exact removeOp_not_found_after l i it0 hf
    refine ⟨⟨removeOp_stale l' i hnone, hnone⟩, ?_⟩
    intro hwf l'' hev
    have hdead : KeyDead l' i := by
      refine ⟨hnone, ?_⟩
      have hnk : l'.nextKey = l.nextKey := by
        rw [← h2]
        exact removeOp_nextKey l i
      rw [hnk]
      obtain ⟨ks, hperm, _, hfresh, _, _, _⟩ := hwf
      exact hfresh i (hperm.mem_iff.mp (mem_keysOf_of_findItem _ _ _ hf))
    have hdead2 : KeyDead l'' i := keyDead_evolves l' l'' i hev hdead
    exact ⟨removeOp_stale l'' i hdead2.1, hdead2.1⟩

/-- C4 witness: removing the only node of `[7]` (key 0) yields a state on
which a second `remove(0)` returns `None` and `get(0)` returns `None`,
now and after any further operations. -/
theorem remove_stale_handle_safe_witness :
    ((remove (⟨none, none, 1, []⟩ : LinkedList Nat) 0 =
        (none, (⟨none, none, 1, []⟩ : LinkedList Nat)) ∧
      get (⟨none, none, 1, []⟩ : LinkedList Nat) 0 = none) ∧
     (WF (push_back (new Nat) 7).2 →
      ∀ l'' : LinkedList Nat,
        Evolves (⟨none, none, 1, []⟩ : LinkedList Nat) l'' →
        remove l'' 0 = (none, l'') ∧ get l'' 0 = none)) :=
  remove_stale_handle_safe (push_back (new Nat) 7).2 0
    ⟨0, 7, none, none⟩ ⟨none, none, 1, []⟩ (by decide)

/-- C5: on a handle that does not resolve to a live node, `insert_after`
and `insert_before` panic (the `unwrap()` on the anchor lookup), and the
panic is raised before any mutation: the state carried by the panic is
the unchanged list. -/
theorem insert_dead_anchor_panics (l : LinkedList T) (i : Nat) (v : T)
    (h : get l i = none) :
    insert_after l i v = .error l ∧ insert_before l i v = .error l := by
  have hf : findItem l.items i = none := h
  constructor
  · simp only [insert_after, hf]
  · simp only [insert_before, hf]

/-- C5 witness: inserting after or before the unresolvable handle 0 of the
empty list panics with the list unchanged. -/
theorem insert_dead_anchor_panics_witness :
    insert_after (new Nat) 0 5 = .error (new Nat) ∧
    insert_before (new Nat) 0 5 = .error (new Nat) :=
  insert_dead_anchor_panics (new Nat) 0 5 rfl

/-- C6: on every list reachable from the empty list by the public
operations, `len() = 0`, `head = None` and `tail = None` are equivalent. -/
theorem reachable_len_zero_iff_heads_none (l : LinkedList T)
    (h : Reachable l) :
    (len l = 0 ↔ l.head = none) ∧ (l.head = none ↔ l.tail = none) := by
  obtain ⟨ks, hperm, hnodup, hfresh, hhead, htail, hchain⟩ :=
    reachable_wf l h
  have hlen : len l = ks.length := by
    have h1 := hperm.length_eq
    rw [keysOf, List.length_map] at h1
    exact h1
  constructor
  · rw [hlen, hhead, List.length_eq_zero, List.head?_eq_none_iff]
  · rw [hhead, htail, List.head?_eq_none_iff, List.getLast?_eq_none_iff]

/-- C6 witness: the invariant at the reachable one-element list `[5]`. -/
theorem reachable_len_zero_iff_heads_none_witness :
    (len (push_back (new Nat) 5).2 = 0 ↔
      (push_back (new Nat) 5).2.head = none) ∧
    ((push_back (new Nat) 5).2.head = none ↔
      (push_back (new Nat) 5).2.tail = none) :=
  reachable_len_zero_iff_heads_none (push_back (new Nat) 5).2
    (Reachable.push_back (new Nat) 5 Reachable.empty)

/-- C7: on every reachable list, neighbour links are mutually consistent:
if the live node at `i` has `next_index = Some n` then the node at `n`
exists and has `prev_index = Some i`, and symmetrically for `prev`. -/
theorem reachable_link_mutual_consistency (l : LinkedList T)
    (h : Reachable l) (i n p : Nat) (it : LinkedListItem T) :
    (findItem l.items i = some it → it.next_index = some n →
      ∃ itn, findItem l.items n = some itn ∧ itn.prev_index = some i) ∧
    (findItem l.items i = some it → it.prev_index = some p →
      ∃ itp, findItem l.items p = some itp ∧ itp.next_index = some i) := by
  obtain ⟨ks, hperm, hnodup, hfresh, hhead, htail, hchain⟩ :=
    reachable_wf l h
  constructor
  · intro hf hnx
    have hmem : i ∈ ks := hperm.mem_iff.mp (mem_keysOf_of_findItem _ _ _ hf)
    exact chain_next_consistent l.items ks none i n it hchain hf hmem hnx
  · intro hf hpv
    have hmem : i ∈ ks := hperm.mem_iff.mp (mem_keysOf_of_findItem _ _ _ hf)
    refine chain_prev_consistent l.items ks none i p it hchain ?_ hf hmem hpv
    intro pk hpk
    cases hpk

/-- C7 witness: on the reachable list `[10, 20]` (keys 0, 1), the node of
key 1 has `prev_index = Some 0`, and the node at 0 indeed has
`next_index = Some 1`. -/
theorem reachable_link_mutual_consistency_witness :
    (findItem (push_back (push_back (new Nat) 10).2 20).2.items 1 =
        some ⟨1, 20, none, some 0⟩ →
      (⟨1, 20, none, some 0⟩ : LinkedListItem Nat).next_index = some 7 →
      ∃ itn, findItem
        (push_back (push_back (new Nat) 10).2 20).2.items 7 =
          some itn ∧ itn.prev_index = some 1) ∧
    (findItem (push_back (push_back (new Nat) 10).2 20).2.items 1 =
        some ⟨1, 20, none, some 0⟩ →
      (⟨1, 20, none, some 0⟩ : LinkedListItem Nat).prev_index = some 0 →
      ∃ itp, findItem
        (push_back (push_back (new Nat) 10).2 20).2.items 0 =
          some itp ∧ itp.next_index = some 1) :=
  reachable_link_mutual_consistency
    (push_back (push_back (new Nat) 10).2 20).2
    (Reachable.push_back _ 20 (Reachable.push_back _ 10 Reachable.empty))
    1 7 0 ⟨1, 20, none, some 0⟩

/-- C8: on a well-formed list, `push_back(v)` followed by `pop_back()`
returns `Some v` and restores the previous `len()`. -/
theorem pushBack_popBack_roundtrip (l : LinkedList T) (v : T)
    (h : WF l) :
    (pop_back (push_back l v).2).1 = some v ∧
    len (pop_back (push_back l v).2).2 = len l := by
  obtain ⟨ks, hinv⟩ := h
  have hinv1 := chainInv_pushBack l ks v hinv
  have htl1 : (push_back l v).2.tail = some l.nextKey := by
    obtain ⟨_, _, _, _, htail1, _⟩ := hinv1
    rw [htail1, List.getLast?_concat]
  have hfind : findItem (push_back l v).2.items l.nextKey =
      some ⟨l.nextKey, v, none, l.tail⟩ := by
    cases htl : l.tail with
    | none =>
      simp only [push_back, htl]
      rw [findItem_cons, if_pos rfl]
    | some t =>
      have htks : t ∈ ks := by
        obtain ⟨_, _, _, _, htail0, _⟩ := hinv
        obtain ⟨A, hA⟩ := getLast?_some_decomp ks t (by rw [← htail0, htl])
        rw [hA]
        exact List.mem_append_right A (List.mem_singleton_self t)
      have hkt : l.nextKey ≠ t := by
        obtain ⟨_, _, hfresh0, _, _, _⟩ := hinv
        exact fun h => lt_irrefl _ (h ▸ hfresh0 t htks)
      simp only [push_back, htl]
      rw [findItem_setItem, if_neg hkt, findItem_cons, if_pos rfl]
  rw [popBack_eq_removeOp (push_back l v).2 (ks ++ [l.nextKey]) hinv1, htl1]
  constructor
  · show ((remove (push_back l v).2 l.nextKey).1.map
      (fun it => it.value)) = some v
    simp only [remove, hfind]
    rfl
  · show len (remove (push_back l v).2 l.nextKey).2 = len l
    have hnd1 : (keysOf (push_back l v).2.items).Nodup := by
      obtain ⟨hperm1, hnodup1, _, _, _, _⟩ := hinv1
      exact hperm1.nodup_iff.mpr hnodup1
    have hl1 := lenOp_removeOp_live (push_back l v).2 l.nextKey
      ⟨l.nextKey, v, none, l.tail⟩ hfind hnd1
    rw [lenOp_pushBack] at hl1
    exact Nat.succ_injective hl1

/-- C8 witness: the round trip on the well-formed one-element list `[1]`. -/
theorem pushBack_popBack_roundtrip_witness :
    (pop_back (push_back (push_back (new Nat) 1).2 9).2).1 = some 9 ∧
    len (pop_back (push_back (push_back (new Nat) 1).2 9).2).2 =
      len (push_back (new Nat) 1).2 :=
  pushBack_popBack_roundtrip (push_back (new Nat) 1).2 9
    (wf_pushBack (new Nat) 1 (wf_empty Nat))

/-- C9: on a well-formed list, `pop_back()` returns the same value and
produces the same state as `remove` on the current tail handle (`None` and
no change on the empty list), and `pop_front()` likewise with the head. -/
theorem pop_equiv_remove_endpoint (l : LinkedList T) (h : WF l) :
    pop_back l = (match l.tail with
      | none => (none, l)
      | some t => removeValue l t) ∧
    pop_front l = .ok (match l.head with
      | none => (none, l)
      | some hd => removeValue l hd) := by
  obtain ⟨ks, hinv⟩ := h
  exact ⟨popBack_eq_removeOp l ks hinv, popFront_eq_removeOp l ks hinv⟩

/-- C9 witness: the equivalence at the well-formed one-element list `[3]`,
whose head and tail are both the key 0. -/
theorem pop_equiv_remove_endpoint_witness :
    pop_back (push_back (new Nat) 3).2 =
      removeValue (push_back (new Nat) 3).2 0 ∧
    pop_front (push_back (new Nat) 3).2 =
      .ok (removeValue (push_back (new Nat) 3).2 0) :=
  pop_equiv_remove_endpoint (push_back (new Nat) 3).2
    (wf_pushBack (new Nat) 3 (wf_empty Nat))

/-- C10: `cursor_next(start)` yields `start` itself as its first element
whether or not `start` resolves, and consequently consuming
`iter_next(start)` on a stale `start` panics on the `unwrap` instead of
yielding an empty sequence. -/
theorem cursor_next_yields_start_iter_panics (l : LinkedList T)
    (start n : Nat) (h : 0 < n) :
    (cursorNextTake l start n).head? = some start ∧
    (get l start = none → iterNextTake l start n = .error ()) := by
  constructor
  · cases n with
    | zero => cases h
    | succ n' => rfl
  · intro hg
    have hf : findItem l.items start = none := hg
    cases n with
    | zero => cases h
    | succ n' =>
      show unwrapAll l (cursorNextTake l start (n' + 1)) = .error ()
      simp [cursorNextTake, unwrapAll, hf]

/-- C10 witness: on the empty list the cursor still yields the stale
handle 3 first, and the value iterator panics. -/
theorem cursor_next_yields_start_iter_panics_witness :
    (cursorNextTake (new Nat) 3 1).head? = some 3 ∧
    (get (new Nat) 3 = none →
      iterNextTake (new Nat) 3 1 = .error ()) :=
  cursor_next_yields_start_iter_panics (new Nat) 3 1 (by decide)

end FastList
